import Mathlib

/-!
Verification development for the `pa-recommender-server` training notebook
(`recommender_train.ipynb`).

The notebook aggregates raw (artist, venue) event pairs with
`groupby(['artists', 'venues']).size()`, builds sorted categorical
vocabularies (`CategoricalDtype(categories=sorted(...), ordered=True)`),
assembles a COO/CSR sparse interaction matrix from the category codes, trains
an implicit-feedback ALS model, and serves top-K recommendations.

External identifiers are embedded as natural numbers (the notebook treats them
as opaque comparable values).  The aggregation, vocabulary, category-code and
sparse-matrix construction are embedded directly from the notebook cells.  The
ALS factorization engine and the `recommend` query live in the external
`implicit` library, not in this repository; those parts are modelled from the
spec and are marked as such in their doc comments.  Real arithmetic is
embedded as exact rationals.
-/

namespace PaRec

/-! ### Interaction aggregation -/

/-- Distinct elements of a list in order of first appearance — the behavior of
pandas `Series.unique()`. -/
def uniqueFirst {α : Type} [DecidableEq α] : List α → List α
  | [] => []
  | a :: rest => a :: (uniqueFirst rest).filter (fun x => x ≠ a)

/-- Ascending lexicographic order on (artist, venue) keys, the order in which
pandas `groupby(['artists', 'venues'])` (default `sort=True`) emits its group
keys. -/
def pairLex (a b : Nat × Nat) : Prop := a.1 < b.1 ∨ (a.1 = b.1 ∧ a.2 ≤ b.2)

instance : DecidableRel pairLex := fun a b => by unfold pairLex; infer_instance

instance : IsTotal (Nat × Nat) pairLex := ⟨by intro a b; unfold pairLex; omega⟩

instance : IsTrans (Nat × Nat) pairLex := ⟨by intro a b c; unfold pairLex; omega⟩

instance : IsAntisymm (Nat × Nat) pairLex :=
  ⟨by intro a b h1 h2; unfold pairLex at *; ext <;> omega⟩

/-- The distinct (artist, venue) group keys in the order pandas `groupby`
produces them: sorted ascending. -/
def groupKeys (pairs : List (Nat × Nat)) : List (Nat × Nat) :=
  List.insertionSort pairLex (uniqueFirst pairs)

/-- The aggregated frame built by
`implicit_data.groupby(['artists', 'venues']).size()` followed by
`reset_index` and the rename of the size column to `plays`: one row per
distinct (artist, venue) pair, paired with the number of raw rows in that
group. -/
def aggregate (pairs : List (Nat × Nat)) : List ((Nat × Nat) × Nat) :=
  (groupKeys pairs).map fun k => (k, pairs.count k)

/-- The `artists` column of the aggregated frame. -/
def artistCol (pairs : List (Nat × Nat)) : List Nat :=
  (aggregate pairs).map fun e => e.1.1

/-- The `venues` column of the aggregated frame. -/
def venueCol (pairs : List (Nat × Nat)) : List Nat :=
  (aggregate pairs).map fun e => e.1.2

/-- The notebook's `artists = implicit_data["artists"].unique()`: distinct
artist identifiers in order of first appearance in the aggregated frame. -/
def artistsArr (pairs : List (Nat × Nat)) : List Nat := uniqueFirst (artistCol pairs)

/-- The notebook's `venues = implicit_data["venues"].unique()`: distinct venue
identifiers in order of first appearance in the aggregated frame. -/
def venuesArr (pairs : List (Nat × Nat)) : List Nat := uniqueFirst (venueCol pairs)

/-- The artist EntityIndex:
`artist_cat = CategoricalDtype(categories=sorted(artists), ordered=True)` —
the ascending sort of the distinct artist identifiers. -/
def artistVocab (pairs : List (Nat × Nat)) : List Nat :=
  List.insertionSort (· ≤ ·) (artistsArr pairs)

/-- The venue EntityIndex:
`venue_cat = CategoricalDtype(categories=sorted(venues), ordered=True)`. -/
def venueVocab (pairs : List (Nat × Nat)) : List Nat :=
  List.insertionSort (· ≤ ·) (venuesArr pairs)

/-- pandas `.astype(cat).cat.codes`: the position of a value in the categorical
vocabulary, or `-1` when the value is not a category. -/
def catCode (cats : List Nat) (x : Nat) : Int :=
  if x ∈ cats then (cats.indexOf x : Int) else -1

/-- The notebook's `shape = (len(artists), len(venues))`. -/
def shapeOf (pairs : List (Nat × Nat)) : Nat × Nat :=
  ((artistsArr pairs).length, (venuesArr pairs).length)

/-- The COO triples handed to
`sparse.coo_matrix((implicit_data["plays"], (artist_index, venue_index)), shape=shape)`,
as (row code, column code, plays) — one triple per aggregated row. -/
def cooTriples (pairs : List (Nat × Nat)) : List (Int × Int × Nat) :=
  (aggregate pairs).map fun e =>
    (catCode (artistVocab pairs) e.1.1, catCode (venueVocab pairs) e.1.2, e.2)

/-! ### Model and recommendation query -/

/-- A trained model: the two latent-factor matrices, the two vocabularies, and
the observed (artist position, venue position) nonzeros of the interaction
matrix (spec §3, Model). -/
structure Model where
  U : List (List ℚ)
  V : List (List ℚ)
  artistVocab : List Nat
  venueVocab : List Nat
  obs : List (Nat × Nat)

/-- Which entity side a query starts from. -/
inductive Side
  | artist
  | venue

/-- Dot product of two latent rows. -/
def dotQ (a b : List ℚ) : ℚ := (List.zipWith (· * ·) a b).sum

/-- Modelled from the spec: the score vector of a query — "latent row of the
querying entity dotted with every row of the counterpart's factor matrix"
(spec §4.5); the factorization engine is the external `implicit` library. -/
def scoresFor (m : Model) (s : Side) (pos : Nat) : List ℚ :=
  match s with
  | .artist => m.V.map fun v => dotQ (m.U.getD pos []) v
  | .venue => m.U.map fun u => dotQ (m.V.getD pos []) u

/-- Observed counterpart positions for the querying entity: the nonzero columns
of its row (artist side) or the nonzero rows of its column (venue side). -/
def observedOf (m : Model) (s : Side) (pos : Nat) : List Nat :=
  match s with
  | .artist => (m.obs.filter fun p => p.1 == pos).map fun p => p.2
  | .venue => (m.obs.filter fun p => p.2 == pos).map fun p => p.1

/-- The counterpart EntityIndex of a query side. -/
def counterpartVocab (m : Model) (s : Side) : List Nat :=
  match s with
  | .artist => m.venueVocab
  | .venue => m.artistVocab

/-- External identifiers of the observed counterpart entities of the querying
entity. -/
def observedIds (m : Model) (s : Side) (pos : Nat) : List Nat :=
  (observedOf m s pos).map fun i => (counterpartVocab m s).getD i 0

/-- Ranking order of scored candidates: descending score, ties broken by
ascending counterpart position (spec §4.5). -/
def rankLe (a b : Nat × ℚ) : Prop := b.2 < a.2 ∨ (a.2 = b.2 ∧ a.1 ≤ b.1)

instance : DecidableRel rankLe := fun a b => by unfold rankLe; infer_instance

/-- Modelled from the spec: the query engine of §4.5 — score every counterpart
position, if `excludeObserved` drop (skip, never score) the observed positions,
sort by descending score with ties by ascending position, take the first
`topK`, and map positions back through the counterpart EntityIndex. -/
def recommend (m : Model) (s : Side) (pos topK : Nat) (excludeObserved : Bool) :
    List (Nat × ℚ) :=
  let scored := (scoresFor m s pos).enum
  let cands :=
    if excludeObserved then scored.filter (fun e => decide (e.1 ∉ observedOf m s pos))
    else scored
  let ranked := List.insertionSort rankLe cands
  (ranked.take topK).map fun e => ((counterpartVocab m s).getD e.1 0, e.2)

/-- Structural well-formedness of a trained model: vocabularies are duplicate
free, factor matrices have one row per vocabulary entry, and every observed
nonzero is inside the matrix shape. -/
def Model.WF (m : Model) : Prop :=
  m.artistVocab.Nodup ∧ m.venueVocab.Nodup ∧
    m.U.length = m.artistVocab.length ∧ m.V.length = m.venueVocab.length ∧
    ∀ p ∈ m.obs, p.1 < m.U.length ∧ p.2 < m.V.length

/-! ### The notebook's query call sites -/

/-- The label the notebook attaches to a returned recommendation position in
the artist query result table: `venues[ids]`, indexing the unsorted
first-appearance `unique()` array by the returned position. -/
def notebookVenueLabel (pairs : List (Nat × Nat)) (p : Nat) : Nat :=
  (venuesArr pairs).getD p 0

/-- The external identifier at a position of the venue EntityIndex
(`sorted(venues)`) — the ordering that produced the category codes, the matrix
columns, and hence the positions the trained model scores. -/
def indexVenueLabel (pairs : List (Nat × Nat)) (p : Nat) : Nat :=
  (venueVocab pairs).getD p 0

/-- The score vector computed by the notebook's venue query
`model.recommend(venue_id, csr[venue_id], ...)`: the library scores the
item (venue) factors against the user (artist) factor row selected by its
first argument, so the venue position is consumed as an artist position and
the result is venue-indexed. -/
def notebookVenueQueryScores (m : Model) (venuePos : Nat) : List ℚ :=
  m.V.map fun v => dotQ (m.U.getD venuePos []) v

/-! ### ALS training (modelled from the spec) -/

/-- Training configuration (spec §6): factor count k, regularization λ,
confidence scale α, iteration count, and the random seed. -/
structure Config where
  factors : Nat
  regularization : ℚ
  alpha : ℚ
  iterations : Nat
  seed : Nat

/-- Modelled from the spec: a linear congruential step used to realize the
seeded pseudo-random initialization ("small random values (seeded by the
configured random seed)", spec §4.4); the engine itself is the external
`implicit` library. -/
def lcg (s : Nat) : Nat := (7 * s + 3) % 101

/-- A single seeded initial value. -/
def initVal (seed idx : Nat) : ℚ := (lcg (seed + idx) : ℚ) / 101

/-- Seeded initial factor matrix with n rows and k columns. -/
def initFactors (seed n k : Nat) : List (List ℚ) :=
  (List.range n).map fun i => (List.range k).map fun j => initVal seed (i * k + j)

def zeroVec (k : Nat) : List ℚ := List.replicate k 0

def vecAdd (a b : List ℚ) : List ℚ := List.zipWith (· + ·) a b

def vecScale (c : ℚ) (v : List ℚ) : List ℚ := v.map (c * ·)

def matAdd (A B : List (List ℚ)) : List (List ℚ) := List.zipWith vecAdd A B

def matScale (c : ℚ) (A : List (List ℚ)) : List (List ℚ) := A.map (vecScale c)

/-- Outer product v wᵗ as a list of rows. -/
def outerProd (v w : List ℚ) : List (List ℚ) := v.map fun x => vecScale x w

def zeroMat (k : Nat) : List (List ℚ) := List.replicate k (zeroVec k)

def identityMat (k : Nat) : List (List ℚ) :=
  (List.range k).map fun i => (List.range k).map fun j => if i = j then (1 : ℚ) else 0

/-- Gram matrix G = Mᵗ M = Σ over rows r of r rᵗ (k × k), precomputed once per
half-step (spec §4.4). -/
def gramMat (k : Nat) (M : List (List ℚ)) : List (List ℚ) :=
  M.foldl (fun acc r => matAdd acc (outerProd r r)) (zeroMat k)

/-- First row with a nonzero leading coefficient, and the remaining rows. -/
def pickPivot : List (List ℚ) → Option (List ℚ × List (List ℚ))
  | [] => none
  | r :: rs =>
    if r.headD 0 ≠ 0 then some (r, rs)
    else
      match pickPivot rs with
      | some (p, rest) => some (p, r :: rest)
      | none => none

/-- Modelled from the spec: the k×k symmetric positive-definite solve of §4.4,
realized as Gaussian elimination on augmented rows (coefficients ++ [rhs]);
`none` signals a singular system. -/
def gaussSolve : Nat → List (List ℚ) → Option (List ℚ)
  | 0, _ => some []
  | n + 1, rows =>
    match pickPivot rows with
    | none => none
    | some (p, rest) =>
      let pn := p.map (· / p.headD 1)
      let reduced := rest.map fun r =>
        (List.zipWith (fun x y => x - r.headD 0 * y) r pn).tail
      match gaussSolve n reduced with
      | none => none
      | some xs =>
        let tailp := pn.tail
        some ((tailp.getLastD 0 - dotQ (tailp.take n) xs) :: xs)

/-- Modelled from the spec (§4.4): one row update — solve
(G + Σ α·r · v vᵗ + λI) x = Σ (1 + α·r) · v over the row's observed
counterpart entries; rows with no observations, or a singular system, keep
their current vector. -/
def solveRow (cfg : Config) (G : List (List ℚ)) (fixed : List (List ℚ))
    (obs : List (Nat × ℚ)) (cur : List ℚ) : List ℚ :=
  if obs.isEmpty then cur
  else
    let k := cfg.factors
    let A := obs.foldl
      (fun acc e => matAdd acc (matScale (cfg.alpha * e.2)
        (outerProd (fixed.getD e.1 (zeroVec k)) (fixed.getD e.1 (zeroVec k)))))
      (matAdd G (matScale cfg.regularization (identityMat k)))
    let b := obs.foldl
      (fun acc e => vecAdd acc (vecScale (1 + cfg.alpha * e.2) (fixed.getD e.1 (zeroVec k))))
      (zeroVec k)
    match gaussSolve k (List.zipWith (fun row rhs => row ++ [rhs]) A b) with
    | some x => x
    | none => cur

/-- One half-step: update every row of one side, with the counterpart matrix
held fixed (spec §4.4). -/
def halfStep (cfg : Config) (inter : List (Nat × Nat × ℚ)) (n : Nat)
    (fixed : List (List ℚ)) (cur : List (List ℚ)) : List (List ℚ) :=
  let G := gramMat cfg.factors fixed
  (List.range n).map fun u =>
    solveRow cfg G fixed
      ((inter.filter fun t => t.1 == u).map fun t => t.2)
      (cur.getD u (zeroVec cfg.factors))

/-- The venue-major view of the interaction triples. -/
def swapInter (inter : List (Nat × Nat × ℚ)) : List (Nat × Nat × ℚ) :=
  inter.map fun t => (t.2.1, (t.1, t.2.2))

/-- Modelled from the spec: the ALS loop — artist half-step then venue
half-step in fixed order, repeated for the configured iteration count. -/
def alsLoop (cfg : Config) (inter : List (Nat × Nat × ℚ)) (nA nV : Nat) :
    Nat → List (List ℚ) × List (List ℚ) → List (List ℚ) × List (List ℚ)
  | 0, uv => uv
  | t + 1, uv =>
    let u2 := halfStep cfg inter nA uv.2 uv.1
    let v2 := halfStep cfg (swapInter inter) nV u2 uv.2
    alsLoop cfg inter nA nV t (u2, v2)

/-- Dense-coded interactions (artist position, venue position, plays) produced
from the aggregated frame through the two EntityIndex vocabularies. -/
def denseInter (pairs : List (Nat × Nat)) : List (Nat × Nat × ℚ) :=
  (aggregate pairs).map fun e =>
    ((artistVocab pairs).indexOf e.1.1, ((venueVocab pairs).indexOf e.1.2, (e.2 : ℚ)))

/-- Modelled from the spec: full training — aggregate, code the interactions
through the sorted vocabularies, seeded initialization, ALS iterations — as
performed by `model.fit(csr)` of the external library on the notebook's
matrix. -/
def trainModel (cfg : Config) (pairs : List (Nat × Nat)) : Model :=
  let vocabA := artistVocab pairs
  let vocabV := venueVocab pairs
  let inter := denseInter pairs
  let U0 := initFactors cfg.seed vocabA.length cfg.factors
  let V0 := initFactors (cfg.seed + 1) vocabV.length cfg.factors
  let uv := alsLoop cfg inter vocabA.length vocabV.length cfg.iterations (U0, V0)
  ⟨uv.1, uv.2, vocabA, vocabV, inter.map fun t => (t.1, t.2.1)⟩

/-- Confidence of a raw count r (spec §4.3): c = 1 + α·r; the count of an
unobserved cell is 0, giving confidence 1. -/
def confQ (alpha r : ℚ) : ℚ := 1 + alpha * r

/-- Preference of a raw count r (spec §4.3): p = 1 if r > 0 else 0. -/
def prefQ (r : ℚ) : ℚ := if 0 < r then 1 else 0

/-- Raw count of one cell (u, i) of the interaction matrix: the sum of the
interaction entries at that position (0 when the cell is unobserved). -/
def cellCount (inter : List (Nat × Nat × ℚ)) (u i : Nat) : ℚ :=
  ((inter.filter fun t => t.1 == u && t.2.1 == i).map fun t => t.2.2).sum

/-- Squared euclidean norm of a latent row. -/
def sqNormV (v : List ℚ) : ℚ := dotQ v v

/-- Squared Frobenius norm of a factor matrix. -/
def sqNormM (M : List (List ℚ)) : ℚ := (M.map sqNormV).sum

/-- Modelled from the spec (§4.3–§4.4): the aggregate confidence-weighted
reconstruction loss of the ALS objective,
L = Σ over all cells (u, i) of c_ui·(p_ui − U_u·V_i)² + λ(‖U‖_F² + ‖V‖_F²),
with confidence c = 1 + α·r and preference p = [r > 0] taken from §4.3 at
every cell of the n_artists × n_venues interaction matrix (an unobserved cell
has raw count r = 0, hence confidence 1 and preference 0).  This is the
least-squares objective of which each half-step of §4.4 is the exact per-row
minimizer: the precomputed G = VᵗV term of the normal equations is exactly
the contribution of the unobserved cells. -/
def lossQ (alpha lam : ℚ) (inter : List (Nat × Nat × ℚ)) (nA nV : Nat)
    (U V : List (List ℚ)) : ℚ :=
  (∑ u ∈ Finset.range nA, ∑ i ∈ Finset.range nV,
    confQ alpha (cellCount inter u i) *
      (prefQ (cellCount inter u i) - dotQ (U.getD u []) (V.getD i [])) ^ 2)
  + lam * (sqNormM U + sqNormM V)

/-- The observed (counterpart position, count) entries of one row, exactly as
`halfStep` hands them to `solveRow`. -/
def obsOf (inter : List (Nat × Nat × ℚ)) (u : Nat) : List (Nat × ℚ) :=
  (inter.filter fun t => t.1 == u).map fun t => t.2

/-- One full ALS iteration (artist half-step then venue half-step), the loop
body of `alsLoop`. -/
def alsStep (cfg : Config) (inter : List (Nat × Nat × ℚ)) (nA nV : Nat)
    (uv : List (List ℚ) × List (List ℚ)) : List (List ℚ) × List (List ℚ) :=
  let u2 := halfStep cfg inter nA uv.2 uv.1
  (u2, halfStep cfg (swapInter inter) nV u2 uv.2)

/-- The training trajectory of `trainModel cfg pairs`: the factor-matrix
state after j full ALS iterations (the trained model is the state at
cfg.iterations). -/
def trajState (cfg : Config) (pairs : List (Nat × Nat)) (j : Nat) :
    List (List ℚ) × List (List ℚ) :=
  alsLoop cfg (denseInter pairs) (artistVocab pairs).length (venueVocab pairs).length j
    (initFactors cfg.seed (artistVocab pairs).length cfg.factors,
      initFactors (cfg.seed + 1) (venueVocab pairs).length cfg.factors)

/-- The loss of a factor-matrix state of the training run on `pairs`. -/
def lossAt (cfg : Config) (pairs : List (Nat × Nat))
    (uv : List (List ℚ) × List (List ℚ)) : ℚ :=
  lossQ cfg.alpha cfg.regularization (denseInter pairs)
    (artistVocab pairs).length (venueVocab pairs).length uv.1 uv.2

/-- The state halfway through an iteration: the artist half-step applied to
a state, venue matrix unchanged. -/
def artistHalf (cfg : Config) (pairs : List (Nat × Nat))
    (uv : List (List ℚ) × List (List ℚ)) : List (List ℚ) × List (List ℚ) :=
  (halfStep cfg (denseInter pairs) (artistVocab pairs).length uv.2 uv.1, uv.2)

/-- An n × k matrix shape over row lists. -/
def Mat (n k : Nat) (M : List (List ℚ)) : Prop :=
  M.length = n ∧ ∀ r ∈ M, r.length = k

/-- The coefficient matrix G + Σ α·r·vvᵗ + λI assembled by `solveRow` for one
row's normal equations (the same fold, named for the analysis). -/
def rowA (cfg : Config) (G : List (List ℚ)) (fixed : List (List ℚ))
    (obs : List (Nat × ℚ)) : List (List ℚ) :=
  obs.foldl
    (fun acc e => matAdd acc (matScale (cfg.alpha * e.2)
      (outerProd (fixed.getD e.1 (zeroVec cfg.factors))
        (fixed.getD e.1 (zeroVec cfg.factors)))))
    (matAdd G (matScale cfg.regularization (identityMat cfg.factors)))

/-- The right-hand side Σ (1 + α·r)·v assembled by `solveRow` for one row's
normal equations. -/
def rowB (cfg : Config) (fixed : List (List ℚ)) (obs : List (Nat × ℚ)) : List ℚ :=
  obs.foldl
    (fun acc e => vecAdd acc (vecScale (1 + cfg.alpha * e.2)
      (fixed.getD e.1 (zeroVec cfg.factors))))
    (zeroVec cfg.factors)

/-- The raw count of one counterpart position inside a row's observation
list. -/
def rowCell (obs : List (Nat × ℚ)) (i : Nat) : ℚ :=
  ((obs.filter fun e => e.1 == i).map fun e => e.2).sum

/-- The per-row slice of the loss with the counterpart matrix Y fixed: the
confidence-weighted squared residuals of one latent row against every
counterpart position, plus its own regularization term. -/
def rowObj (alpha lam : ℚ) (obs : List (Nat × ℚ)) (nC : Nat) (Y : List (List ℚ))
    (x : List ℚ) : ℚ :=
  (∑ i ∈ Finset.range nC,
    confQ alpha (rowCell obs i) * (prefQ (rowCell obs i) - dotQ x (Y.getD i [])) ^ 2)
    + lam * dotQ x x

/-- Training failure modes (spec §7). -/
inductive TrainError
  | emptyDataset

/-- Modelled from the spec: the training entry point — an empty input sequence
fails with EmptyDatasetError and no model is built (in the notebook the empty
input aborts in the external read/aggregation path before `model.fit`). -/
def trainResult (cfg : Config) (pairs : List (Nat × Nat)) : Except TrainError Model :=
  if pairs = [] then .error .emptyDataset else .ok (trainModel cfg pairs)

/-! ### Basic lemmas about the aggregation -/

theorem mem_uniqueFirst {α : Type} [DecidableEq α] (l : List α) (x : α) :
    x ∈ uniqueFirst l ↔ x ∈ l := by
  induction l with
  | nil => simp [uniqueFirst]
  | cons a rest ih =>
    simp only [uniqueFirst, List.mem_cons, List.mem_filter, ih]
    constructor
    · rintro (h | ⟨h, _⟩) <;> simp [h]
    · rintro (h | h)
      · exact Or.inl h
      · by_cases hxa : x = a
        · exact Or.inl hxa
        · exact Or.inr ⟨h, by simpa using hxa⟩

theorem nodup_uniqueFirst {α : Type} [DecidableEq α] (l : List α) :
    (uniqueFirst l).Nodup := by
  induction l with
  | nil => simp [uniqueFirst]
  | cons a rest ih =>
    simp only [uniqueFirst, List.nodup_cons]
    refine ⟨fun h => ?_, List.Nodup.filter _ ih⟩
    simp [List.mem_filter] at h

theorem uniqueFirst_perm_of_perm {α : Type} [DecidableEq α] {l₁ l₂ : List α}
    (h : l₁.Perm l₂) : (uniqueFirst l₁).Perm (uniqueFirst l₂) := by
  refine (List.perm_ext_iff_of_nodup (nodup_uniqueFirst l₁) (nodup_uniqueFirst l₂)).mpr ?_
  intro a
  rw [mem_uniqueFirst, mem_uniqueFirst]
  exact h.mem_iff

theorem mem_groupKeys (pairs : List (Nat × Nat)) (k : Nat × Nat) :
    k ∈ groupKeys pairs ↔ k ∈ pairs := by
  unfold groupKeys
  rw [(List.perm_insertionSort pairLex (uniqueFirst pairs)).mem_iff]
  exact mem_uniqueFirst pairs k

theorem nodup_groupKeys (pairs : List (Nat × Nat)) : (groupKeys pairs).Nodup :=
  (List.perm_insertionSort pairLex (uniqueFirst pairs)).nodup_iff.mpr
    (nodup_uniqueFirst pairs)

theorem aggregate_map_fst (pairs : List (Nat × Nat)) :
    (aggregate pairs).map Prod.fst = groupKeys pairs := by
  unfold aggregate
  rw [List.map_map]
  exact List.map_id _

theorem mem_aggregate {pairs : List (Nat × Nat)} {e : (Nat × Nat) × Nat}
    (he : e ∈ aggregate pairs) : e.1 ∈ pairs ∧ e.2 = pairs.count e.1 := by
  unfold aggregate at he
  obtain ⟨k, hk, rfl⟩ := List.mem_map.mp he
  exact ⟨(mem_groupKeys pairs k).mp hk, rfl⟩

/-! ### C5: aggregation produces one row per distinct pair, counts = frequency -/

/-- Claim C5: for every input sequence of (artist, venue) pairs, the
aggregation produces at most one row per distinct pair (the keys are
duplicate-free), and each row's `plays` value equals the number of occurrences
of its pair in the raw input, hence is at least 1. -/
theorem aggregate_counts (pairs : List (Nat × Nat)) :
    ((aggregate pairs).map Prod.fst).Nodup ∧
      ∀ e ∈ aggregate pairs, e.2 = pairs.count e.1 ∧ 1 ≤ e.2 := by
  constructor
  · rw [aggregate_map_fst]
    exact nodup_groupKeys pairs
  · intro e he
    obtain ⟨hmem, hcount⟩ := mem_aggregate he
    refine ⟨hcount, ?_⟩
    rw [hcount]
    exact List.count_pos_iff.mpr hmem

/-- Witness for C5, at the concrete input [(1,2),(1,2),(3,4)] and its
aggregated row ((1,2),2). -/
theorem aggregate_counts_witness :
    ((1, 2), 2) ∈ aggregate [(1, 2), (1, 2), (3, 4)] ∧
      (((1, 2), 2) : (Nat × Nat) × Nat).2 =
        List.count ((1, 2) : Nat × Nat) [(1, 2), (1, 2), (3, 4)] ∧
      1 ≤ (((1, 2), 2) : (Nat × Nat) × Nat).2 :=
  ⟨by decide, (aggregate_counts [(1, 2), (1, 2), (3, 4)]).2 _ (by decide)⟩

/-! ### C9: aggregation conserves the total event count -/

theorem sum_map_add {α : Type} (f g : α → Nat) (l : List α) :
    (l.map fun i => f i + g i).sum = (l.map f).sum + (l.map g).sum := by
  induction l with
  | nil => simp
  | cons a t ih => simp [ih]; omega

theorem sum_indicator_of_notMem {α : Type} [BEq α] [LawfulBEq α] (keys : List α) (a : α)
    (ha : a ∉ keys) : (keys.map fun k => if a == k then 1 else 0).sum = 0 := by
  induction keys with
  | nil => simp
  | cons b t ih =>
    simp only [List.mem_cons, not_or] at ha
    have hab : (a == b) = false := beq_eq_false_iff_ne.mpr ha.1
    simp only [List.map_cons, List.sum_cons, ih ha.2, hab, Bool.false_eq_true,
      if_false, Nat.zero_add]

theorem sum_indicator_of_mem {α : Type} [BEq α] [LawfulBEq α] (keys : List α) (a : α)
    (hnd : keys.Nodup) (ha : a ∈ keys) :
    (keys.map fun k => if a == k then 1 else 0).sum = 1 := by
  induction keys with
  | nil => simp at ha
  | cons b t ih =>
    obtain ⟨hb, ht⟩ := List.nodup_cons.mp hnd
    rcases List.mem_cons.mp ha with h | h
    · subst h
      simp [sum_indicator_of_notMem t a hb]
    · have hab : (a == b) = false := beq_eq_false_iff_ne.mpr (fun he => hb (he ▸ h))
      simp [hab, ih ht h]

theorem sum_counts {α : Type} [BEq α] [LawfulBEq α] (l keys : List α) (hnd : keys.Nodup)
    (hmem : ∀ x ∈ l, x ∈ keys) : (keys.map fun k => l.count k).sum = l.length := by
  induction l with
  | nil => simp
  | cons a t ih =>
    have hsplit : (keys.map fun k => (a :: t).count k)
        = keys.map fun k => t.count k + if a == k then 1 else 0 := by
      simp only [List.count_cons]
    rw [hsplit, sum_map_add, ih (fun x hx => hmem x (List.mem_cons_of_mem a hx)),
      sum_indicator_of_mem keys a hnd (hmem a (List.mem_cons_self a t)),
      List.length_cons]

/-- Claim C9: for every non-empty input, the sum of the aggregated `plays`
counts over all distinct (artist, venue) pairs equals the number of raw input
rows. -/
theorem aggregate_conserves_total (pairs : List (Nat × Nat)) (hne : pairs ≠ []) :
    ((aggregate pairs).map fun e => e.2).sum = pairs.length := by
  calc ((aggregate pairs).map fun e => e.2).sum
      = ((groupKeys pairs).map fun k => pairs.count k).sum := by
        unfold aggregate
        rw [List.map_map]
        rfl
    _ = pairs.length := sum_counts pairs (groupKeys pairs) (nodup_groupKeys pairs)
        (fun x hx => (mem_groupKeys pairs x).mpr hx)

/-- Witness for C9, at the concrete input [(1,2),(1,2),(3,4)]. -/
theorem aggregate_conserves_total_witness :
    ([(1, 2), (1, 2), (3, 4)] : List (Nat × Nat)) ≠ [] ∧
      ((aggregate [(1, 2), (1, 2), (3, 4)]).map fun e => e.2).sum =
        ([(1, 2), (1, 2), (3, 4)] : List (Nat × Nat)).length :=
  ⟨by decide, aggregate_conserves_total [(1, 2), (1, 2), (3, 4)] (by decide)⟩

/-! ### C6: aggregation is deterministic in the input multiset -/

theorem groupKeys_perm_invariant {l₁ l₂ : List (Nat × Nat)} (h : l₁.Perm l₂) :
    groupKeys l₁ = groupKeys l₂ := by
  apply List.eq_of_perm_of_sorted (r := pairLex)
  · exact ((List.perm_insertionSort pairLex (uniqueFirst l₁)).trans
      (uniqueFirst_perm_of_perm h)).trans
      (List.perm_insertionSort pairLex (uniqueFirst l₂)).symm
  · exact List.sorted_insertionSort pairLex (uniqueFirst l₁)
  · exact List.sorted_insertionSort pairLex (uniqueFirst l₂)

/-- Claim C6: for any two input sequences containing the same multiset of
(artist, venue) pairs in any order, aggregation produces identical rows
(identical keys in identical positions and identical per-pair counts) and
identical sorted EntityIndex vocabularies on both sides. -/
theorem aggregate_perm_invariant (l₁ l₂ : List (Nat × Nat)) (h : l₁.Perm l₂) :
    aggregate l₁ = aggregate l₂ ∧ artistVocab l₁ = artistVocab l₂ ∧
      venueVocab l₁ = venueVocab l₂ := by
  have hagg : aggregate l₁ = aggregate l₂ := by
    unfold aggregate
    rw [groupKeys_perm_invariant h]
    have hcount : (fun k => ((k : Nat × Nat), l₁.count k))
        = fun k => (k, l₂.count k) := by
      funext k
      simp only [List.count_eq_countP]
      rw [h.countP_eq]
    rw [hcount]
  refine ⟨hagg, ?_, ?_⟩
  · unfold artistVocab artistsArr artistCol
    rw [hagg]
  · unfold venueVocab venuesArr venueCol
    rw [hagg]

/-- Witness for C6, at the concrete permuted inputs [(1,2),(3,4)] and
[(3,4),(1,2)]. -/
theorem aggregate_perm_invariant_witness :
    aggregate [(1, 2), (3, 4)] = aggregate [(3, 4), (1, 2)] ∧
      artistVocab [(1, 2), (3, 4)] = artistVocab [(3, 4), (1, 2)] ∧
      venueVocab [(1, 2), (3, 4)] = venueVocab [(3, 4), (1, 2)] :=
  aggregate_perm_invariant [(1, 2), (3, 4)] [(3, 4), (1, 2)] (by decide)

/-! ### C10: sparse-matrix construction is total -/

theorem mem_artistVocab {pairs : List (Nat × Nat)} {e : (Nat × Nat) × Nat}
    (he : e ∈ aggregate pairs) : e.1.1 ∈ artistVocab pairs := by
  unfold artistVocab
  rw [(List.perm_insertionSort (· ≤ ·) (artistsArr pairs)).mem_iff]
  unfold artistsArr
  rw [mem_uniqueFirst]
  exact List.mem_map.mpr ⟨e, he, rfl⟩

theorem mem_venueVocab {pairs : List (Nat × Nat)} {e : (Nat × Nat) × Nat}
    (he : e ∈ aggregate pairs) : e.1.2 ∈ venueVocab pairs := by
  unfold venueVocab
  rw [(List.perm_insertionSort (· ≤ ·) (venuesArr pairs)).mem_iff]
  unfold venuesArr
  rw [mem_uniqueFirst]
  exact List.mem_map.mpr ⟨e, he, rfl⟩

theorem artistVocab_length (pairs : List (Nat × Nat)) :
    (artistVocab pairs).length = (artistsArr pairs).length :=
  (List.perm_insertionSort (· ≤ ·) (artistsArr pairs)).length_eq

theorem venueVocab_length (pairs : List (Nat × Nat)) :
    (venueVocab pairs).length = (venuesArr pairs).length :=
  (List.perm_insertionSort (· ≤ ·) (venuesArr pairs)).length_eq

theorem catCode_of_mem {cats : List Nat} {x : Nat} (hx : x ∈ cats) :
    catCode cats x = (cats.indexOf x : Int) ∧
      0 ≤ catCode cats x ∧ catCode cats x < (cats.length : Int) := by
  unfold catCode
  rw [if_pos hx]
  refine ⟨rfl, Int.natCast_nonneg _, ?_⟩
  exact_mod_cast List.indexOf_lt_length.mpr hx

theorem nodup_aggregate (pairs : List (Nat × Nat)) : (aggregate pairs).Nodup :=
  List.Nodup.of_map Prod.fst (by rw [aggregate_map_fst]; exact nodup_groupKeys pairs)

/-- Claim C10: sparse-matrix construction is total — every aggregated
interaction receives category codes inside 0..n-1 on both axes (never the
missing marker -1), so every COO entry lies inside
shape = (number of distinct artists, number of distinct venues); the (row,
column) positions are pairwise distinct and there is exactly one entry per
aggregated pair, each with a value of at least 1. -/
theorem coo_construction_total (pairs : List (Nat × Nat)) :
    (∀ t ∈ cooTriples pairs, 0 ≤ t.1 ∧ t.1 < ((shapeOf pairs).1 : Int) ∧
        0 ≤ t.2.1 ∧ t.2.1 < ((shapeOf pairs).2 : Int) ∧ 1 ≤ t.2.2) ∧
      ((cooTriples pairs).map fun t => (t.1, t.2.1)).Nodup ∧
      (cooTriples pairs).length = (aggregate pairs).length := by
  refine ⟨?_, ?_, List.length_map _ _⟩
  · intro t ht
    obtain ⟨e, he, rfl⟩ := List.mem_map.mp (by exact ht)
    obtain ⟨_, ha0, hal⟩ := catCode_of_mem (mem_artistVocab he)
    obtain ⟨_, hv0, hvl⟩ := catCode_of_mem (mem_venueVocab he)
    rw [artistVocab_length] at hal
    rw [venueVocab_length] at hvl
    exact ⟨ha0, hal, hv0, hvl, ((aggregate_counts pairs).2 e he).2⟩
  · unfold cooTriples
    rw [List.map_map]
    apply List.Nodup.map_on ?_ (nodup_aggregate pairs)
    intro e he e' he' hfe
    have hc := hfe
    simp only [Function.comp] at hc
    obtain ⟨hceq, -, -⟩ := catCode_of_mem (mem_artistVocab he)
    obtain ⟨hceq', -, -⟩ := catCode_of_mem (mem_artistVocab he')
    obtain ⟨hveq, -, -⟩ := catCode_of_mem (mem_venueVocab he)
    obtain ⟨hveq', -, -⟩ := catCode_of_mem (mem_venueVocab he')
    have h1 : (artistVocab pairs).indexOf e.1.1 = (artistVocab pairs).indexOf e'.1.1 := by
      have := congrArg Prod.fst hc
      simp only at this
      rw [hceq, hceq'] at this
      exact_mod_cast this
    have h2 : (venueVocab pairs).indexOf e.1.2 = (venueVocab pairs).indexOf e'.1.2 := by
      have := congrArg Prod.snd hc
      simp only at this
      rw [hveq, hveq'] at this
      exact_mod_cast this
    have hkey : e.1 = e'.1 := by
      have hx := (List.indexOf_inj (mem_artistVocab he) (mem_artistVocab he')).mp h1
      have hy := (List.indexOf_inj (mem_venueVocab he) (mem_venueVocab he')).mp h2
      exact Prod.ext hx hy
    have hcnt : e.2 = e'.2 := by
      rw [(mem_aggregate he).2, (mem_aggregate he').2, hkey]
    exact Prod.ext hkey hcnt

/-- Witness for C10, at the concrete input [(1,2)] and its single COO entry
(0, 0, 1). -/
theorem coo_construction_total_witness :
    ((0, 0, 1) : Int × Int × Nat) ∈ cooTriples [(1, 2)] ∧
      1 ≤ (((0, 0, 1) : Int × Int × Nat)).2.2 :=
  ⟨by decide, ((coo_construction_total [(1, 2)]).1 (0, 0, 1) (by decide)).2.2.2.2⟩

/-! ### C1: the notebook's identifier mapping vs the EntityIndex -/

/-- Claim C1 (refuted on the code): the notebook's artist query labels a
returned position through `venues[ids]`, the first-appearance `unique()`
array, while the model's positions are column codes of the sorted venue
EntityIndex (`venue_cat`).  At the raw input [(1,20),(2,10)] the two orderings
disagree: the notebook labels position 0 as venue 20, yet position 0 of the
matrix (and of the EntityIndex) is venue 10 — the venue whose category code is
0. -/
theorem notebook_label_disagrees_with_index :
    notebookVenueLabel [(1, 20), (2, 10)] 0 = 20 ∧
      indexVenueLabel [(1, 20), (2, 10)] 0 = 10 ∧
      catCode (venueVocab [(1, 20), (2, 10)]) 10 = 0 ∧
      notebookVenueLabel [(1, 20), (2, 10)] 0 ≠ indexVenueLabel [(1, 20), (2, 10)] 0 := by
  refine ⟨?_, ?_, ?_, ?_⟩ <;> decide

/-! ### C2: the venue-side query contract -/

/-- The notebook's venue query always computes the artist-side score vector at
the venue position it was handed (the first argument of the library call
selects a row of the user/artist factors). -/
theorem notebookVenueQuery_is_artist_side (m : Model) (p : Nat) :
    notebookVenueQueryScores m p = scoresFor m .artist p := rfl

/-- Claim C2 (refuted on the code): the venue-side query of the notebook,
`model.recommend(venue_id, csr[venue_id], ...)`, does not implement the
symmetric contract.  It equals the artist-side score computation at the venue
position, and on a model with one artist and two venues it differs from the
venue-side contract (its score vector is venue-indexed, length 2, instead of
artist-indexed, length 1). -/
theorem venue_query_uses_artist_row :
    (∀ (m : Model) (p : Nat), notebookVenueQueryScores m p = scoresFor m .artist p) ∧
      notebookVenueQueryScores ⟨[[1]], [[2], [3]], [5], [7, 9], []⟩ 0 ≠
        scoresFor ⟨[[1]], [[2], [3]], [5], [7, 9], []⟩ .venue 0 := by
  refine ⟨fun m p => rfl, fun h => ?_⟩
  have hlen := congrArg List.length h
  simp only [notebookVenueQueryScores, scoresFor, List.length_map] at hlen
  exact absurd hlen (by decide)

/-! ### C4: empty input fails with EmptyDatasetError -/

/-- Claim C4: training invoked on an empty input sequence (no interaction
pairs) fails with EmptyDatasetError and produces no model, for every
configuration. -/
theorem train_empty_fails (cfg : Config) :
    trainResult cfg [] = .error .emptyDataset := rfl

/-! ### C3: exclude_observed never returns an observed identifier -/

theorem observedOf_lt {m : Model} (hwf : m.WF) (s : Side) (pos : Nat) :
    ∀ q ∈ observedOf m s pos, q < (counterpartVocab m s).length := by
  intro q hq
  cases s with
  | artist =>
    simp only [observedOf] at hq
    obtain ⟨p, hp, rfl⟩ := List.mem_map.mp hq
    have hpm := List.mem_of_mem_filter hp
    have h2 := (hwf.2.2.2.2 p hpm).2
    simp only [counterpartVocab]
    rw [← hwf.2.2.2.1]
    exact h2
  | venue =>
    simp only [observedOf] at hq
    obtain ⟨p, hp, rfl⟩ := List.mem_map.mp hq
    have hpm := List.mem_of_mem_filter hp
    have h1 := (hwf.2.2.2.2 p hpm).1
    simp only [counterpartVocab]
    rw [← hwf.2.2.1]
    exact h1

theorem scoresFor_length {m : Model} (hwf : m.WF) (s : Side) (pos : Nat) :
    (scoresFor m s pos).length = (counterpartVocab m s).length := by
  cases s with
  | artist =>
    simp only [scoresFor, counterpartVocab, List.length_map]
    exact hwf.2.2.2.1
  | venue =>
    simp only [scoresFor, counterpartVocab, List.length_map]
    exact hwf.2.2.1

theorem counterpartVocab_nodup {m : Model} (hwf : m.WF) (s : Side) :
    (counterpartVocab m s).Nodup := by
  cases s with
  | artist => exact hwf.2.1
  | venue => exact hwf.1

/-- Claim C3: for every well-formed model and every entity on either side,
`recommend` with exclude_observed = true never returns an identifier that
appears as an observed (nonzero) interaction for the querying entity,
regardless of its raw score. -/
theorem recommend_excludes_observed (m : Model) (s : Side) (pos topK : Nat)
    (hwf : m.WF) (x : Nat × ℚ) (hx : x ∈ recommend m s pos topK true) :
    x.1 ∉ observedIds m s pos := by
  simp only [recommend, if_true] at hx
  obtain ⟨e, he, rfl⟩ := List.mem_map.mp hx
  have he2 : e ∈ List.insertionSort rankLe (((scoresFor m s pos).enum).filter
      fun e => decide (e.1 ∉ observedOf m s pos)) := List.take_subset _ _ he
  have he3 := (List.perm_insertionSort rankLe _).subset he2
  obtain ⟨henum, hdec⟩ := List.mem_filter.mp he3
  have hnotobs : e.1 ∉ observedOf m s pos := of_decide_eq_true hdec
  have hlt : e.1 < (scoresFor m s pos).length :=
    (List.getElem?_eq_some.mp (List.mem_enum_iff_getElem?.mp henum)).1
  rw [scoresFor_length hwf] at hlt
  intro hmem
  simp only [observedIds] at hmem
  obtain ⟨q, hq, heq⟩ := List.mem_map.mp hmem
  have hqlt := observedOf_lt hwf s pos q hq
  rw [List.getD_eq_getElem _ _ hqlt] at heq
  have heq2 : (counterpartVocab m s)[q] = (counterpartVocab m s)[e.1] := by
    rw [heq]
    exact List.getD_eq_getElem _ _ hlt
  have hqe : q = e.1 := by
    have h2 := (List.Nodup.get_inj_iff (counterpartVocab_nodup hwf s)
      (i := ⟨q, hqlt⟩) (j := ⟨e.1, hlt⟩)).mp (by simpa using heq2)
    simpa using congrArg Fin.val h2
  exact hnotobs (hqe ▸ hq)

/-- Evaluation helper for the C3 witness: on a one-artist, one-venue model
with no observed interactions, the artist query returns the single venue. -/
theorem recommend_eval_witness :
    recommend ⟨[[1]], [[2]], [5], [7], []⟩ .artist 0 1 true =
      [((7 : Nat), dotQ [(1 : ℚ)] [(2 : ℚ)])] := rfl

/-- Witness for C3, at the concrete model of `recommend_eval_witness`. -/
theorem recommend_excludes_observed_witness :
    (⟨[[1]], [[2]], [5], [7], []⟩ : Model).WF ∧
      ((7 : Nat), dotQ [(1 : ℚ)] [(2 : ℚ)]).1 ∉
        observedIds ⟨[[1]], [[2]], [5], [7], []⟩ .artist 0 :=
  ⟨⟨by decide, by decide, by decide, by decide, by decide⟩,
    recommend_excludes_observed ⟨[[1]], [[2]], [5], [7], []⟩ .artist 0 1
      ⟨by decide, by decide, by decide, by decide, by decide⟩ _
      (by rw [recommend_eval_witness]; exact List.mem_singleton.mpr rfl)⟩

/-! ### C7: training is deterministic given input and seed -/

/-- Claim C7: training twice on identical input with an identical configured
random seed (and identical remaining hyperparameters) produces identical
factor matrices U and V; and the seed is a recognized configuration option
that determines initialization — distinct seeds produce distinct initial
factors. -/
theorem train_seed_determinism :
    (∀ (c₁ c₂ : Config) (p₁ p₂ : List (Nat × Nat)),
        c₁.factors = c₂.factors → c₁.regularization = c₂.regularization →
        c₁.alpha = c₂.alpha → c₁.iterations = c₂.iterations → c₁.seed = c₂.seed →
        p₁ = p₂ →
        (trainModel c₁ p₁).U = (trainModel c₂ p₂).U ∧
          (trainModel c₁ p₁).V = (trainModel c₂ p₂).V) ∧
      initFactors 0 1 1 ≠ initFactors 1 1 1 := by
  constructor
  · intro c₁ c₂ p₁ p₂ h1 h2 h3 h4 h5 h6
    obtain ⟨f₁, r₁, a₁, i₁, s₁⟩ := c₁
    obtain ⟨f₂, r₂, a₂, i₂, s₂⟩ := c₂
    simp only at h1 h2 h3 h4 h5
    subst h1 h2 h3 h4 h5 h6
    exact ⟨rfl, rfl⟩
  · intro h
    have h0 : initVal 0 0 = initVal 1 0 := by
      have := congrArg (fun M => (M.getD 0 []).getD 0 0) h
      simpa [initFactors, initVal] using this
    rw [initVal, initVal, lcg, lcg] at h0
    norm_num at h0

/-- Witness for C7, at a concrete configuration and input. -/
theorem train_seed_determinism_witness :
    ((trainModel ⟨1, 1/10, 1, 2, 42⟩ [(1, 2), (1, 2), (3, 2)]).U =
        (trainModel ⟨1, 1/10, 1, 2, 42⟩ [(1, 2), (1, 2), (3, 2)]).U ∧
      (trainModel ⟨1, 1/10, 1, 2, 42⟩ [(1, 2), (1, 2), (3, 2)]).V =
        (trainModel ⟨1, 1/10, 1, 2, 42⟩ [(1, 2), (1, 2), (3, 2)]).V) ∧
      initFactors 0 1 1 ≠ initFactors 1 1 1 :=
  ⟨train_seed_determinism.1 ⟨1, 1/10, 1, 2, 42⟩ ⟨1, 1/10, 1, 2, 42⟩
      [(1, 2), (1, 2), (3, 2)] [(1, 2), (1, 2), (3, 2)] rfl rfl rfl rfl rfl rfl,
    train_seed_determinism.2⟩

/-! ### Vector and list groundwork for the loss analysis -/

theorem getD_in_range {α : Type} (l : List α) (n : Nat) (d d' : α) (h : n < l.length) :
    l.getD n d = l.getD n d' := by
  rw [List.getD_eq_getElem l d h, List.getD_eq_getElem l d' h]

theorem getD_range_map {β : Type} (f : Nat → β) (n u : Nat) (d : β) (h : u < n) :
    ((List.range n).map f).getD u d = f u := by
  rw [List.getD_eq_getElem _ _ (by simpa using h)]
  simp

theorem getD_append_length (l l' : List ℚ) (d : ℚ) :
    (l ++ l').getD l.length d = l'.getD 0 d := by
  induction l with
  | nil => simp
  | cons a t ih => simpa using ih

theorem length_vecAdd (a b : List ℚ) : (vecAdd a b).length = min a.length b.length := by
  simp [vecAdd]

theorem length_vecScale (c : ℚ) (a : List ℚ) : (vecScale c a).length = a.length := by
  simp [vecScale]

theorem length_zeroVec (k : Nat) : (zeroVec k).length = k := by
  simp [zeroVec]

theorem dotQ_nil_right (a : List ℚ) : dotQ a [] = 0 := by
  cases a <;> rfl

theorem dotQ_cons (a b : ℚ) (as bs : List ℚ) :
    dotQ (a :: as) (b :: bs) = a * b + dotQ as bs := by
  simp [dotQ]

theorem dotQ_comm (a b : List ℚ) : dotQ a b = dotQ b a := by
  induction a generalizing b with
  | nil => cases b <;> simp [dotQ]
  | cons y ys ih =>
    cases b with
    | nil => simp [dotQ]
    | cons z zs => rw [dotQ_cons, dotQ_cons, ih, mul_comm]

theorem dotQ_vecAdd (a b x : List ℚ) (h : a.length = b.length) :
    dotQ (vecAdd a b) x = dotQ a x + dotQ b x := by
  induction a generalizing b x with
  | nil =>
    cases b with
    | nil => simp [vecAdd, dotQ]
    | cons z zs => simp at h
  | cons y ys ih =>
    cases b with
    | nil => simp at h
    | cons z zs =>
      cases x with
      | nil => simp [dotQ_nil_right]
      | cons w ws =>
        have h2 : ys.length = zs.length := by simpa using h
        show dotQ ((y + z) :: vecAdd ys zs) (w :: ws) = _
        rw [dotQ_cons, dotQ_cons, dotQ_cons, ih zs ws h2]
        ring

theorem dotQ_vecScale (c : ℚ) (a x : List ℚ) :
    dotQ (vecScale c a) x = c * dotQ a x := by
  induction a generalizing x with
  | nil => simp [vecScale, dotQ]
  | cons y ys ih =>
    cases x with
    | nil => simp [dotQ_nil_right]
    | cons z zs =>
      show dotQ ((c * y) :: vecScale c ys) (z :: zs) = _
      rw [dotQ_cons, dotQ_cons, ih]
      ring

theorem dotQ_zeroVec (k : Nat) (x : List ℚ) : dotQ (zeroVec k) x = 0 := by
  induction k generalizing x with
  | zero => simp [zeroVec, dotQ]
  | succ n ih =>
    cases x with
    | nil => simp [dotQ_nil_right]
    | cons z zs =>
      show dotQ (0 :: zeroVec n) (z :: zs) = 0
      rw [dotQ_cons, ih]
      ring

theorem getD_vecAdd (a b : List ℚ) (j : Nat) (ha : j < a.length) (hb : j < b.length) :
    (vecAdd a b).getD j 0 = a.getD j 0 + b.getD j 0 := by
  have h : j < (vecAdd a b).length := by
    rw [length_vecAdd]
    omega
  rw [List.getD_eq_getElem _ _ h, List.getD_eq_getElem _ _ ha, List.getD_eq_getElem _ _ hb]
  simp [vecAdd]

theorem getD_vecScale (c : ℚ) (a : List ℚ) (j : Nat) (h : j < a.length) :
    (vecScale c a).getD j 0 = c * a.getD j 0 := by
  have h2 : j < (vecScale c a).length := by
    rw [length_vecScale]
    exact h
  rw [List.getD_eq_getElem _ _ h2, List.getD_eq_getElem _ _ h]
  simp [vecScale]

theorem getD_zeroVec (k j : Nat) : (zeroVec k).getD j 0 = 0 := by
  by_cases h : j < k
  · rw [List.getD_eq_getElem _ _ (by simpa [length_zeroVec] using h)]
    simp [zeroVec]
  · rw [List.getD_eq_default]
    rw [length_zeroVec]
    omega

theorem dotQ_eq_sum (a b : List ℚ) :
    dotQ a b = ∑ j ∈ Finset.range (min a.length b.length), a.getD j 0 * b.getD j 0 := by
  induction a generalizing b with
  | nil => simp [dotQ]
  | cons y ys ih =>
    cases b with
    | nil => simp [dotQ_nil_right]
    | cons z zs =>
      have hmin : min (y :: ys).length (z :: zs).length = min ys.length zs.length + 1 := by
        simp only [List.length_cons]
        omega
      rw [dotQ_cons, hmin, Finset.sum_range_succ']
      simp only [List.getD_cons_succ, List.getD_cons_zero]
      rw [ih]
      ring

theorem dotQ_eq_sum_of_len (a b : List ℚ) (k : Nat) (ha : a.length = k) (hb : b.length = k) :
    dotQ a b = ∑ j ∈ Finset.range k, a.getD j 0 * b.getD j 0 := by
  rw [dotQ_eq_sum, ha, hb, Nat.min_self]

theorem dotQ_map_div (h : ℚ) (a x : List ℚ) :
    dotQ (a.map (· / h)) x = dotQ a x / h := by
  induction a generalizing x with
  | nil => simp [dotQ]
  | cons y ys ih =>
    cases x with
    | nil => simp [dotQ_nil_right]
    | cons z zs =>
      show dotQ ((y / h) :: ys.map (· / h)) (z :: zs) = _
      rw [dotQ_cons, dotQ_cons, ih, add_div, div_mul_eq_mul_div]

theorem dotQ_zipWith_sub (c : ℚ) (r p x : List ℚ) (h : r.length = p.length) :
    dotQ (List.zipWith (fun a b => a - c * b) r p) x = dotQ r x - c * dotQ p x := by
  induction r generalizing p x with
  | nil =>
    cases p with
    | nil => simp [dotQ]
    | cons z zs => simp at h
  | cons y ys ih =>
    cases p with
    | nil => simp at h
    | cons z zs =>
      cases x with
      | nil => simp [dotQ_nil_right]
      | cons w ws =>
        have h2 : ys.length = zs.length := by simpa using h
        show dotQ ((y - c * z) :: List.zipWith _ ys zs) (w :: ws) = _
        rw [dotQ_cons, dotQ_cons, dotQ_cons, ih zs ws h2]
        ring

theorem getD_zipWith_sub (c : ℚ) (r p : List ℚ) (j : Nat)
    (hr : j < r.length) (hp : j < p.length) :
    (List.zipWith (fun a b => a - c * b) r p).getD j 0 = r.getD j 0 - c * p.getD j 0 := by
  have h : j < (List.zipWith (fun a b => a - c * b) r p).length := by
    rw [List.length_zipWith]
    omega
  rw [List.getD_eq_getElem _ _ h, List.getD_eq_getElem _ _ hr, List.getD_eq_getElem _ _ hp]
  simp

theorem list_sum_getD {β : Type} (l : List β) (f : β → ℚ) (d : β) :
    (l.map f).sum = ∑ i ∈ Finset.range l.length, f (l.getD i d) := by
  induction l with
  | nil => simp
  | cons a t ih =>
    simp only [List.map_cons, List.sum_cons, List.length_cons]
    rw [Finset.sum_range_succ']
    simp only [List.getD_cons_succ, List.getD_cons_zero]
    rw [ih]
    ring

theorem range_sum_list_sum {β : Type} (k : Nat) (l : List β) (g : β → Nat → ℚ) :
    ∑ j ∈ Finset.range k, (l.map fun e => g e j).sum
      = (l.map fun e => ∑ j ∈ Finset.range k, g e j).sum := by
  induction l with
  | nil => simp
  | cons a t ih => simp [Finset.sum_add_distrib, ih]

/-! ### Correctness of the Gaussian elimination solver -/

theorem getLastD_eq_getD (l : List ℚ) (n : Nat) (h : l.length = n + 1) :
    l.getLastD 0 = l.getD n 0 := by
  induction l generalizing n with
  | nil => simp at h
  | cons a t ih =>
    cases t with
    | nil =>
      have hn : n = 0 := by simpa using h
      subst hn
      rfl
    | cons b t' =>
      cases n with
      | zero => simp at h
      | succ m =>
        have h2 : (b :: t').length = m + 1 := by simpa using h
        show (b :: t').getLastD 0 = (a :: b :: t').getD (m + 1) 0
        rw [ih m h2]
        rfl

theorem pickPivot_spec (rows : List (List ℚ)) :
    ∀ p rest, pickPivot rows = some (p, rest) → p.headD 0 ≠ 0 ∧ rows.Perm (p :: rest) := by
  induction rows with
  | nil =>
    intro p rest h
    simp [pickPivot] at h
  | cons r rs ih =>
    intro p rest h
    rw [pickPivot] at h
    by_cases hr : r.headD 0 ≠ 0
    · rw [if_pos hr] at h
      simp only [Option.some.injEq, Prod.mk.injEq] at h
      obtain ⟨h1, h2⟩ := h
      subst h1 h2
      exact ⟨hr, List.Perm.refl _⟩
    · rw [if_neg hr] at h
      cases h2 : pickPivot rs with
      | none => rw [h2] at h; simp at h
      | some pr =>
        obtain ⟨q, rest'⟩ := pr
        rw [h2] at h
        simp only [Option.some.injEq, Prod.mk.injEq] at h
        obtain ⟨h3, h4⟩ := h
        subst h3 h4
        obtain ⟨hq0, hperm⟩ := ih q rest' h2
        exact ⟨hq0, (hperm.cons r).trans (List.Perm.swap q r rest')⟩

theorem gaussSolve_length : ∀ (n : Nat) (rows : List (List ℚ)) (x : List ℚ),
    gaussSolve n rows = some x → x.length = n := by
  intro n
  induction n with
  | zero =>
    intro rows x h
    simp only [gaussSolve, Option.some.injEq] at h
    subst h
    rfl
  | succ m ih =>
    intro rows x h
    rw [gaussSolve] at h
    cases hp : pickPivot rows with
    | none => rw [hp] at h; simp at h
    | some pr =>
      obtain ⟨p, rest⟩ := pr
      rw [hp] at h
      simp only at h
      cases hg : gaussSolve m (rest.map fun r =>
          (List.zipWith (fun x y => x - r.headD 0 * y) r (p.map (· / p.headD 1))).tail) with
      | none => rw [hg] at h; simp at h
      | some xs =>
        rw [hg] at h
        simp only [Option.some.injEq] at h
        subst h
        simp [ih _ _ hg]

theorem gaussSolve_solves : ∀ (n : Nat) (rows : List (List ℚ)) (x : List ℚ),
    rows.length = n → (∀ r ∈ rows, r.length = n + 1) →
    gaussSolve n rows = some x →
    ∀ r ∈ rows, dotQ (r.take n) x = r.getD n 0 := by
  intro n
  induction n with
  | zero =>
    intro rows x hlen _ _ r hrmem
    rw [List.length_eq_zero] at hlen
    subst hlen
    simp at hrmem
  | succ m ih =>
    intro rows x hlen hrows h r hrmem
    rw [gaussSolve] at h
    cases hp : pickPivot rows with
    | none => rw [hp] at h; simp at h
    | some pr =>
      obtain ⟨p, rest⟩ := pr
      rw [hp] at h
      simp only at h
      obtain ⟨hp0, hperm⟩ := pickPivot_spec rows p rest hp
      have hpmem : p ∈ rows := hperm.mem_iff.mpr (List.mem_cons_self p rest)
      have hplen : p.length = m + 2 := hrows p hpmem
      obtain ⟨h0, ptail, rfl⟩ : ∃ h0 ptail, p = h0 :: ptail := by
        cases p with
        | nil => simp at hplen
        | cons a t => exact ⟨a, t, rfl⟩
      have hh0 : h0 ≠ 0 := by simpa using hp0
      have hptail : ptail.length = m + 1 := by simpa using hplen
      have hrestlen : rest.length = m := by
        have := hperm.length_eq
        rw [hlen] at this
        simpa using this.symm
      have hheadD : (h0 :: ptail).headD 1 = h0 := rfl
      rw [hheadD] at h
      have hpn : (h0 :: ptail).map (· / h0) = (h0 / h0) :: ptail.map (· / h0) := rfl
      rw [hpn] at h
      set q : List ℚ := ptail.map (· / h0) with hqdef
      have hqlen : q.length = m + 1 := by simp [hqdef, hptail]
      have hreduced : ∀ rr ∈ rest, ((List.zipWith (fun a b => a - rr.headD 0 * b)
          rr ((h0 / h0) :: q)).tail).length = m + 1 := by
        intro rr hrr
        have hrrlen : rr.length = m + 2 := hrows rr (hperm.mem_iff.mpr (List.mem_cons_of_mem _ hrr))
        rw [List.length_tail, List.length_zipWith]
        simp [hrrlen, hqlen]
      cases hg : gaussSolve m (rest.map fun rr =>
          (List.zipWith (fun x y => x - rr.headD 0 * y) rr ((h0 / h0) :: q)).tail) with
      | none => rw [hg] at h; simp at h
      | some xs =>
        rw [hg] at h
        simp only [Option.some.injEq] at h
        have hxslen : xs.length = m := gaussSolve_length _ _ _ hg
        have htail : ((h0 / h0) :: q).tail = q := rfl
        rw [htail] at h
        subst h
        have ihsol := ih (rest.map fun rr =>
            (List.zipWith (fun x y => x - rr.headD 0 * y) rr ((h0 / h0) :: q)).tail) xs
          (by simp [hrestlen])
          (by
            intro rr hrr
            obtain ⟨rr0, hrr0, rfl⟩ := List.mem_map.mp hrr
            exact hreduced rr0 hrr0)
          hg
        have hqgetD : q.getD m 0 = ptail.getD m 0 / h0 := by
          rw [List.getD_eq_getElem _ _ (by omega : m < q.length),
            List.getD_eq_getElem _ _ (by omega : m < ptail.length)]
          simp [hqdef]
        have hqtake : q.take m = (ptail.take m).map (· / h0) := by
          rw [hqdef, List.map_take]
        have hqdot : dotQ (q.take m) xs = dotQ (ptail.take m) xs / h0 := by
          rw [hqtake, dotQ_map_div]
        have hc : (q.getLastD 0 - dotQ (q.take m) xs)
            = (ptail.getD m 0 - dotQ (ptail.take m) xs) / h0 := by
          rw [getLastD_eq_getD q m hqlen, hqgetD, hqdot, sub_div]
        rcases List.mem_cons.mp (hperm.mem_iff.mp hrmem) with hcase | hcase
        · subst hcase
          show dotQ (((h0 :: ptail)).take (m + 1)) _ = ((h0 :: ptail)).getD (m + 1) 0
          rw [List.take_succ_cons, List.getD_cons_succ, dotQ_cons, hc]
          rw [mul_comm h0, div_mul_cancel₀ _ hh0]
          ring
        · have hrlen : r.length = m + 2 := hrows r hrmem
          obtain ⟨r0, rtail, rfl⟩ : ∃ r0 rtail, r = r0 :: rtail := by
            cases r with
            | nil => simp at hrlen
            | cons a t => exact ⟨a, t, rfl⟩
          have hrtail : rtail.length = m + 1 := by simpa using hrlen
          have hred : (List.zipWith (fun a b => a - (r0 :: rtail).headD 0 * b)
              (r0 :: rtail) ((h0 / h0) :: q)).tail = List.zipWith (fun a b => a - r0 * b) rtail q := by
            rfl
          have hin : List.zipWith (fun a b => a - r0 * b) rtail q ∈
              rest.map fun rr =>
                (List.zipWith (fun x y => x - rr.headD 0 * y) rr ((h0 / h0) :: q)).tail := by
            refine List.mem_map.mpr ⟨r0 :: rtail, hcase, ?_⟩
            exact hred
          have hihr := ihsol _ hin
          have hlhs : dotQ ((List.zipWith (fun a b => a - r0 * b) rtail q).take m) xs
              = dotQ (rtail.take m) xs - r0 * dotQ (q.take m) xs := by
            rw [List.take_zipWith, dotQ_zipWith_sub]
            simp [hrtail, hqlen]
          have hrhs : (List.zipWith (fun a b => a - r0 * b) rtail q).getD m 0
              = rtail.getD m 0 - r0 * q.getD m 0 := by
            rw [getD_zipWith_sub] <;> omega
          rw [hlhs, hrhs] at hihr
          show dotQ (((r0 :: rtail)).take (m + 1)) _ = ((r0 :: rtail)).getD (m + 1) 0
          rw [List.take_succ_cons, List.getD_cons_succ, dotQ_cons, hc]
          rw [hqdot, hqgetD] at hihr
          have hgoal : r0 * ((ptail.getD m 0 - dotQ (ptail.take m) xs) / h0)
              + dotQ (rtail.take m) xs = rtail.getD m 0 := by
            field_simp at hihr ⊢
            linarith
          exact hgoal

/-! ### The normal-equation solution minimizes the weighted least squares -/

theorem quadratic_min (k nC : Nat) (lam : ℚ) (c p : Nat → ℚ) (v : Nat → Nat → ℚ)
    (xs xx : Nat → ℚ) (hc : ∀ i, 0 ≤ c i) (hlam : 0 ≤ lam)
    (hNE : ∀ j ∈ Finset.range k,
      (∑ i ∈ Finset.range nC, c i * (∑ l ∈ Finset.range k, xs l * v i l) * v i j) + lam * xs j
        = ∑ i ∈ Finset.range nC, c i * p i * v i j) :
    (∑ i ∈ Finset.range nC, c i * (p i - ∑ j ∈ Finset.range k, xs j * v i j) ^ 2)
        + lam * ∑ j ∈ Finset.range k, xs j ^ 2
      ≤ (∑ i ∈ Finset.range nC, c i * (p i - ∑ j ∈ Finset.range k, xx j * v i j) ^ 2)
        + lam * ∑ j ∈ Finset.range k, xx j ^ 2 := by
  have hyv : ∀ i, (∑ j ∈ Finset.range k, xx j * v i j)
      = (∑ j ∈ Finset.range k, xs j * v i j) + ∑ j ∈ Finset.range k, (xx j - xs j) * v i j := by
    intro i
    rw [← Finset.sum_add_distrib]
    refine Finset.sum_congr rfl fun j _ => ?_
    ring
  have hexp : (∑ i ∈ Finset.range nC, c i * (p i - ∑ j ∈ Finset.range k, xx j * v i j) ^ 2)
        + lam * ∑ j ∈ Finset.range k, xx j ^ 2
      = ((∑ i ∈ Finset.range nC, c i * (p i - ∑ j ∈ Finset.range k, xs j * v i j) ^ 2)
          + lam * ∑ j ∈ Finset.range k, xs j ^ 2)
        + ((∑ i ∈ Finset.range nC, c i * (∑ j ∈ Finset.range k, (xx j - xs j) * v i j) ^ 2)
          + lam * ∑ j ∈ Finset.range k, (xx j - xs j) ^ 2)
        + 2 * (lam * (∑ j ∈ Finset.range k, xs j * (xx j - xs j))
          - ∑ i ∈ Finset.range nC,
              c i * (p i - ∑ j ∈ Finset.range k, xs j * v i j)
                * ∑ j ∈ Finset.range k, (xx j - xs j) * v i j) := by
    have h1 : (∑ i ∈ Finset.range nC, c i * (p i - ∑ j ∈ Finset.range k, xx j * v i j) ^ 2)
        = ∑ i ∈ Finset.range nC,
            (c i * (p i - ∑ j ∈ Finset.range k, xs j * v i j) ^ 2
              + c i * (∑ j ∈ Finset.range k, (xx j - xs j) * v i j) ^ 2
              - 2 * (c i * (p i - ∑ j ∈ Finset.range k, xs j * v i j)
                  * ∑ j ∈ Finset.range k, (xx j - xs j) * v i j)) := by
      refine Finset.sum_congr rfl fun i _ => ?_
      rw [hyv i]
      ring
    have h2 : (∑ j ∈ Finset.range k, xx j ^ 2)
        = ∑ j ∈ Finset.range k,
            (xs j ^ 2 + (xx j - xs j) ^ 2 + 2 * (xs j * (xx j - xs j))) := by
      refine Finset.sum_congr rfl fun j _ => ?_
      ring
    have hC : (∑ i ∈ Finset.range nC,
          2 * (c i * (p i - ∑ j ∈ Finset.range k, xs j * v i j)
            * ∑ j ∈ Finset.range k, (xx j - xs j) * v i j))
        = 2 * ∑ i ∈ Finset.range nC,
            c i * (p i - ∑ j ∈ Finset.range k, xs j * v i j)
              * ∑ j ∈ Finset.range k, (xx j - xs j) * v i j := by
      rw [Finset.mul_sum]
    have ha : (∑ j ∈ Finset.range k, 2 * (xs j * (xx j - xs j)))
        = 2 * ∑ j ∈ Finset.range k, xs j * (xx j - xs j) := by
      rw [Finset.mul_sum]
    rw [h1, h2, Finset.sum_sub_distrib, Finset.sum_add_distrib, Finset.sum_add_distrib,
      Finset.sum_add_distrib, hC, ha]
    ring
  have hcross : (∑ i ∈ Finset.range nC,
        c i * (p i - ∑ j ∈ Finset.range k, xs j * v i j)
          * ∑ j ∈ Finset.range k, (xx j - xs j) * v i j)
      = lam * ∑ j ∈ Finset.range k, xs j * (xx j - xs j) := by
    have h3 : (∑ i ∈ Finset.range nC,
          c i * (p i - ∑ j ∈ Finset.range k, xs j * v i j)
            * ∑ j ∈ Finset.range k, (xx j - xs j) * v i j)
        = ∑ j ∈ Finset.range k, ∑ i ∈ Finset.range nC,
            (xx j - xs j) * (c i * (p i - ∑ l ∈ Finset.range k, xs l * v i l) * v i j) := by
      rw [Finset.sum_comm]
      refine Finset.sum_congr rfl fun i _ => ?_
      rw [Finset.mul_sum]
      refine Finset.sum_congr rfl fun j _ => ?_
      ring
    rw [h3]
    have h4 : ∀ j ∈ Finset.range k,
        (∑ i ∈ Finset.range nC,
          (xx j - xs j) * (c i * (p i - ∑ l ∈ Finset.range k, xs l * v i l) * v i j))
        = (xx j - xs j) * (lam * xs j) := by
      intro j hj
      rw [← Finset.mul_sum]
      congr 1
      have h5 : (∑ i ∈ Finset.range nC,
            c i * (p i - ∑ l ∈ Finset.range k, xs l * v i l) * v i j)
          = (∑ i ∈ Finset.range nC, c i * p i * v i j)
            - ∑ i ∈ Finset.range nC, c i * (∑ l ∈ Finset.range k, xs l * v i l) * v i j := by
        rw [← Finset.sum_sub_distrib]
        refine Finset.sum_congr rfl fun i _ => ?_
        ring
      rw [h5, ← hNE j hj]
      ring
    rw [Finset.sum_congr rfl h4, Finset.mul_sum]
    refine Finset.sum_congr rfl fun j _ => ?_
    ring
  have hpos : 0 ≤ (∑ i ∈ Finset.range nC,
        c i * (∑ j ∈ Finset.range k, (xx j - xs j) * v i j) ^ 2)
      + lam * ∑ j ∈ Finset.range k, (xx j - xs j) ^ 2 := by
    refine add_nonneg (Finset.sum_nonneg fun i _ => mul_nonneg (hc i) (sq_nonneg _))
      (mul_nonneg hlam (Finset.sum_nonneg fun j _ => sq_nonneg _))
  rw [hexp, hcross]
  linarith

/-! ### Shape and row lemmas for the assembled normal equations -/

theorem mem_zipWith_elim {α β γ : Type} (f : α → β → γ) :
    ∀ (A : List α) (B : List β) (r : γ), r ∈ List.zipWith f A B →
      ∃ a ∈ A, ∃ b ∈ B, r = f a b := by
  intro A
  induction A with
  | nil => intro B r h; simp at h
  | cons a As ih =>
    intro B r h
    cases B with
    | nil => simp at h
    | cons b Bs =>
      rw [List.zipWith_cons_cons] at h
      rcases List.mem_cons.mp h with h1 | h1
      · exact ⟨a, by simp, b, by simp, h1⟩
      · obtain ⟨a', ha', b', hb', rfl⟩ := ih Bs r h1
        exact ⟨a', by simp [ha'], b', by simp [hb'], rfl⟩

theorem Mat_zeroMat (k : Nat) : Mat k k (zeroMat k) := by
  refine ⟨by simp [zeroMat], fun r hr => ?_⟩
  rw [List.eq_of_mem_replicate hr]
  exact length_zeroVec k

theorem Mat_identityMat (k : Nat) : Mat k k (identityMat k) := by
  refine ⟨by simp [identityMat], fun r hr => ?_⟩
  obtain ⟨i, _, rfl⟩ := List.mem_map.mp hr
  simp

theorem Mat_matAdd {k : Nat} {A B : List (List ℚ)} (hA : Mat k k A) (hB : Mat k k B) :
    Mat k k (matAdd A B) := by
  refine ⟨by simp [matAdd, hA.1, hB.1], fun r hr => ?_⟩
  obtain ⟨a, ha, b, hb, rfl⟩ := mem_zipWith_elim vecAdd A B r hr
  rw [length_vecAdd, hA.2 a ha, hB.2 b hb]
  exact Nat.min_self k

theorem Mat_matScale {k : Nat} (cq : ℚ) {A : List (List ℚ)} (hA : Mat k k A) :
    Mat k k (matScale cq A) := by
  refine ⟨by simp [matScale, hA.1], fun r hr => ?_⟩
  obtain ⟨a, ha, rfl⟩ := List.mem_map.mp hr
  rw [length_vecScale]
  exact hA.2 a ha

theorem Mat_outerProd {k : Nat} {v w : List ℚ} (hv : v.length = k) (hw : w.length = k) :
    Mat k k (outerProd v w) := by
  refine ⟨by simp [outerProd, hv], fun r hr => ?_⟩
  obtain ⟨a, _, rfl⟩ := List.mem_map.mp hr
  rw [length_vecScale]
  exact hw

theorem Mat_foldl_matAdd {k : Nat} {β : Type} (l : List β) (T : β → List (List ℚ))
    (init : List (List ℚ)) (hinit : Mat k k init) (hT : ∀ e ∈ l, Mat k k (T e)) :
    Mat k k (l.foldl (fun acc e => matAdd acc (T e)) init) := by
  induction l generalizing init with
  | nil => exact hinit
  | cons e rest ih =>
    exact ih (matAdd init (T e)) (Mat_matAdd hinit (hT e (List.mem_cons_self e rest)))
      (fun e' he' => hT e' (List.mem_cons_of_mem e he'))

theorem Mat_gramMat {k : Nat} {Y : List (List ℚ)} (hY : ∀ r ∈ Y, r.length = k) :
    Mat k k (gramMat k Y) := by
  unfold gramMat
  exact Mat_foldl_matAdd Y (fun r => outerProd r r) (zeroMat k) (Mat_zeroMat k)
    (fun r hr => Mat_outerProd (hY r hr) (hY r hr))

theorem row_matAdd {A B : List (List ℚ)} (j : Nat) (hjA : j < A.length) (hjB : j < B.length) :
    (matAdd A B).getD j [] = vecAdd (A.getD j []) (B.getD j []) := by
  have h : j < (matAdd A B).length := by
    simp [matAdd]
    omega
  rw [List.getD_eq_getElem _ _ h, List.getD_eq_getElem _ _ hjA, List.getD_eq_getElem _ _ hjB]
  simp [matAdd]

theorem row_matScale (cq : ℚ) {A : List (List ℚ)} (j : Nat) (hj : j < A.length) :
    (matScale cq A).getD j [] = vecScale cq (A.getD j []) := by
  have h : j < (matScale cq A).length := by
    simpa [matScale] using hj
  rw [List.getD_eq_getElem _ _ h, List.getD_eq_getElem _ _ hj]
  simp [matScale]

theorem row_outerProd (v w : List ℚ) (j : Nat) (hj : j < v.length) :
    (outerProd v w).getD j [] = vecScale (v.getD j 0) w := by
  have h : j < (outerProd v w).length := by
    simpa [outerProd] using hj
  rw [List.getD_eq_getElem _ _ h, getD_in_range v j 0 0 hj, List.getD_eq_getElem _ _ hj]
  simp [outerProd]

theorem dotQ_row_identityMat (k j : Nat) (x : List ℚ) (hj : j < k) (hx : x.length = k) :
    dotQ ((identityMat k).getD j []) x = x.getD j 0 := by
  have hrow : (identityMat k).getD j []
      = (List.range k).map fun l => if j = l then (1 : ℚ) else 0 := by
    unfold identityMat
    exact getD_range_map _ k j [] hj
  rw [hrow, dotQ_eq_sum_of_len _ _ k (by simp) hx]
  have hterm : ∀ l ∈ Finset.range k,
      ((List.range k).map fun l' => if j = l' then (1 : ℚ) else 0).getD l 0 * x.getD l 0
        = if j = l then x.getD l 0 else 0 := by
    intro l hl
    rw [getD_range_map _ k l 0 (Finset.mem_range.mp hl)]
    by_cases hjl : j = l <;> simp [hjl]
  rw [Finset.sum_congr rfl hterm, Finset.sum_ite_eq]
  simp [hj]

theorem row_len {k : Nat} {M : List (List ℚ)} (hM : Mat k k M) (j : Nat) (hj : j < k) :
    (M.getD j []).length = k := by
  have hjl : j < M.length := by
    rw [hM.1]
    exact hj
  rw [List.getD_eq_getElem _ _ hjl]
  exact hM.2 _ (List.getElem_mem hjl)

theorem dotQ_row_foldl {k : Nat} {β : Type} (l : List β) (T : β → List (List ℚ))
    (init : List (List ℚ)) (x : List ℚ) (j : Nat) (hj : j < k)
    (hinit : Mat k k init) (hT : ∀ e ∈ l, Mat k k (T e)) :
    dotQ ((l.foldl (fun acc e => matAdd acc (T e)) init).getD j []) x
      = dotQ (init.getD j []) x + (l.map fun e => dotQ ((T e).getD j []) x).sum := by
  induction l generalizing init with
  | nil => simp
  | cons e rest ih =>
    have hTe := hT e (by simp)
    have hsum := ih (matAdd init (T e)) (Mat_matAdd hinit hTe)
      (fun e' he' => hT e' (by simp [he']))
    show dotQ ((rest.foldl _ (matAdd init (T e))).getD j []) x = _
    rw [hsum, row_matAdd j (by rw [hinit.1]; exact hj) (by rw [hTe.1]; exact hj),
      dotQ_vecAdd _ _ x (by rw [row_len hinit j hj, row_len hTe j hj])]
    simp only [List.map_cons, List.sum_cons]
    ring

theorem dotQ_row_zeroMat (k j : Nat) (x : List ℚ) (hj : j < k) :
    dotQ ((zeroMat k).getD j []) x = 0 := by
  have hjl : j < (zeroMat k).length := by
    simpa [zeroMat] using hj
  rw [List.getD_eq_getElem _ _ hjl]
  have hz : (zeroMat k)[j] = zeroVec k := List.getElem_replicate _ _
  rw [hz]
  exact dotQ_zeroVec k x

theorem dotQ_row_gramMat {k : Nat} {Y : List (List ℚ)} (hY : ∀ r ∈ Y, r.length = k)
    (j : Nat) (x : List ℚ) (hj : j < k) :
    dotQ ((gramMat k Y).getD j []) x = (Y.map fun r => r.getD j 0 * dotQ r x).sum := by
  unfold gramMat
  rw [dotQ_row_foldl Y (fun r => outerProd r r) (zeroMat k) x j hj (Mat_zeroMat k)
    (fun r hr => Mat_outerProd (hY r hr) (hY r hr)), dotQ_row_zeroMat k j x hj, zero_add]
  congr 1
  refine List.map_eq_map_iff.mpr fun r hr => ?_
  rw [row_outerProd r r j (by rw [hY r hr]; exact hj), dotQ_vecScale]

theorem getD_foldl_vecAdd {β : Type} (l : List β) (g : β → List ℚ) (init : List ℚ)
    (k j : Nat) (hj : j < k) (hinit : init.length = k) (hg : ∀ e ∈ l, (g e).length = k) :
    ((l.foldl (fun acc e => vecAdd acc (g e)) init).getD j 0
      = init.getD j 0 + (l.map fun e => (g e).getD j 0).sum) ∧
      (l.foldl (fun acc e => vecAdd acc (g e)) init).length = k := by
  induction l generalizing init with
  | nil => simp [hinit]
  | cons e rest ih =>
    have hge := hg e (List.mem_cons_self e rest)
    have hlen : (vecAdd init (g e)).length = k := by
      rw [length_vecAdd, hinit, hge, Nat.min_self]
    obtain ⟨h1, h2⟩ := ih (vecAdd init (g e)) hlen
      (fun e' he' => hg e' (List.mem_cons_of_mem e he'))
    refine ⟨?_, h2⟩
    show (rest.foldl _ (vecAdd init (g e))).getD j 0 = _
    rw [h1, getD_vecAdd init (g e) j (by rw [hinit]; exact hj) (by rw [hge]; exact hj)]
    simp only [List.map_cons, List.sum_cons]
    ring

theorem getD_default_len {k : Nat} {Y : List (List ℚ)} (hY : ∀ r ∈ Y, r.length = k)
    (i : Nat) (d : List ℚ) (hd : d.length = k) : (Y.getD i d).length = k := by
  by_cases hi : i < Y.length
  · rw [List.getD_eq_getElem _ _ hi]
    exact hY _ (List.getElem_mem hi)
  · rw [List.getD_eq_default _ _ (by omega)]
    exact hd

/-! ### Relating observation lists to matrix cells -/

theorem cellCount_eq_rowCell (inter : List (Nat × Nat × ℚ)) (u i : Nat) :
    cellCount inter u i = rowCell (obsOf inter u) i := by
  unfold cellCount rowCell obsOf
  rw [List.filter_map, List.filter_filter, List.map_map]
  show ((inter.filter fun t => t.1 == u && t.2.1 == i).map fun t => t.2.2).sum
      = ((inter.filter fun t => (t.2.1 == i) && (t.1 == u)).map fun t => t.2.2).sum
  have hfil : (inter.filter fun t => t.1 == u && t.2.1 == i)
      = inter.filter fun t => (t.2.1 == i) && (t.1 == u) := by
    refine List.filter_congr fun t _ => ?_
    exact Bool.and_comm _ _
  rw [hfil]

theorem rowCell_nonneg (obs : List (Nat × ℚ)) (i : Nat) (hpos : ∀ e ∈ obs, 0 ≤ e.2) :
    0 ≤ rowCell obs i := by
  unfold rowCell
  induction obs with
  | nil => simp
  | cons e rest ih =>
    rw [List.filter_cons]
    by_cases he : (e.1 == i) = true
    · simp only [he, if_true, List.map_cons, List.sum_cons]
      have h1 := hpos e (List.mem_cons_self e rest)
      have h2 := ih (fun e' he' => hpos e' (List.mem_cons_of_mem e he'))
      linarith
    · simp only [he, if_false]
      exact ih (fun e' he' => hpos e' (List.mem_cons_of_mem e he'))

theorem rowCell_cons (e : Nat × ℚ) (rest : List (Nat × ℚ)) (i : Nat) :
    rowCell (e :: rest) i = (if e.1 = i then e.2 else 0) + rowCell rest i := by
  unfold rowCell
  rw [List.filter_cons]
  by_cases he : e.1 = i
  · simp [he]
  · simp [he]

theorem rowCell_eq_zero_of_notMem (rest : List (Nat × ℚ)) (i : Nat)
    (h : i ∉ rest.map Prod.fst) : rowCell rest i = 0 := by
  unfold rowCell
  have hf : rest.filter (fun e => e.1 == i) = [] := by
    refine List.filter_eq_nil_iff.mpr fun e he => ?_
    simp only [beq_iff_eq]
    intro hh
    exact h (List.mem_map.mpr ⟨e, he, hh⟩)
  rw [hf]
  rfl

theorem rowCell_mul_sum (obs : List (Nat × ℚ)) (g : Nat → ℚ) (n : Nat)
    (hb : ∀ e ∈ obs, e.1 < n) :
    ∑ i ∈ Finset.range n, rowCell obs i * g i = (obs.map fun e => e.2 * g e.1).sum := by
  induction obs with
  | nil => simp [rowCell]
  | cons e rest ih =>
    have hsplit : ∑ i ∈ Finset.range n, rowCell (e :: rest) i * g i
        = (∑ i ∈ Finset.range n, (if e.1 = i then e.2 * g i else 0))
          + ∑ i ∈ Finset.range n, rowCell rest i * g i := by
      rw [← Finset.sum_add_distrib]
      refine Finset.sum_congr rfl fun i _ => ?_
      rw [rowCell_cons]
      by_cases he : e.1 = i <;> simp [he] <;> ring
    rw [hsplit, ih (fun e' he' => hb e' (List.mem_cons_of_mem e he')), Finset.sum_ite_eq]
    simp only [Finset.mem_range.mpr (hb e (List.mem_cons_self e rest)), if_true,
      List.map_cons, List.sum_cons]

theorem rowCell_confpref_sum (obs : List (Nat × ℚ)) (alpha : ℚ) (g : Nat → ℚ) (n : Nat)
    (hb : ∀ e ∈ obs, e.1 < n) (hnd : (obs.map Prod.fst).Nodup)
    (hpos : ∀ e ∈ obs, 0 < e.2) :
    ∑ i ∈ Finset.range n, confQ alpha (rowCell obs i) * prefQ (rowCell obs i) * g i
      = (obs.map fun e => (1 + alpha * e.2) * g e.1).sum := by
  induction obs with
  | nil => simp [rowCell, confQ, prefQ]
  | cons e rest ih =>
    have hnd2 : (rest.map Prod.fst).Nodup := (List.nodup_cons.mp hnd).2
    have hnotin : e.1 ∉ rest.map Prod.fst := (List.nodup_cons.mp hnd).1
    have hrest0 : rowCell rest e.1 = 0 := rowCell_eq_zero_of_notMem rest e.1 hnotin
    have hmem : e.1 ∈ Finset.range n := Finset.mem_range.mpr (hb e (List.mem_cons_self e rest))
    have hagree : ∀ i ∈ (Finset.range n).erase e.1,
        confQ alpha (rowCell (e :: rest) i) * prefQ (rowCell (e :: rest) i) * g i
          = confQ alpha (rowCell rest i) * prefQ (rowCell rest i) * g i := by
      intro i hi
      have hne : e.1 ≠ i := fun hh => (Finset.mem_erase.mp hi).1 hh.symm
      rw [rowCell_cons, if_neg hne, zero_add]
    have hat : confQ alpha (rowCell (e :: rest) e.1) * prefQ (rowCell (e :: rest) e.1) * g e.1
        = (1 + alpha * e.2) * g e.1 := by
      rw [rowCell_cons, if_pos rfl, hrest0, add_zero]
      have hp : prefQ e.2 = 1 := by
        unfold prefQ
        rw [if_pos (hpos e (List.mem_cons_self e rest))]
      rw [hp, confQ]
      ring
    have hrestat : confQ alpha (rowCell rest e.1) * prefQ (rowCell rest e.1) * g e.1 = 0 := by
      rw [hrest0]
      unfold prefQ
      rw [if_neg (by norm_num)]
      ring
    calc ∑ i ∈ Finset.range n,
          confQ alpha (rowCell (e :: rest) i) * prefQ (rowCell (e :: rest) i) * g i
        = (∑ i ∈ (Finset.range n).erase e.1,
            confQ alpha (rowCell (e :: rest) i) * prefQ (rowCell (e :: rest) i) * g i)
          + confQ alpha (rowCell (e :: rest) e.1) * prefQ (rowCell (e :: rest) e.1) * g e.1 :=
        (Finset.sum_erase_add _ _ hmem).symm
      _ = (∑ i ∈ (Finset.range n).erase e.1,
            confQ alpha (rowCell rest i) * prefQ (rowCell rest i) * g i)
          + (1 + alpha * e.2) * g e.1 := by
        rw [Finset.sum_congr rfl hagree, hat]
      _ = (∑ i ∈ Finset.range n,
            confQ alpha (rowCell rest i) * prefQ (rowCell rest i) * g i)
          + (1 + alpha * e.2) * g e.1 := by
        rw [← Finset.sum_erase_add (Finset.range n) _ hmem, hrestat, add_zero]
      _ = ((e :: rest).map fun e' => (1 + alpha * e'.2) * g e'.1).sum := by
        rw [ih (fun e' he' => hb e' (List.mem_cons_of_mem e he')) hnd2
          (fun e' he' => hpos e' (List.mem_cons_of_mem e he'))]
        simp only [List.map_cons, List.sum_cons]
        ring

theorem length_foldl_vecAdd {β : Type} (l : List β) (g : β → List ℚ) (init : List ℚ)
    (k : Nat) (hinit : init.length = k) (hg : ∀ e ∈ l, (g e).length = k) :
    (l.foldl (fun acc e => vecAdd acc (g e)) init).length = k := by
  induction l generalizing init with
  | nil => exact hinit
  | cons e rest ih =>
    refine ih (vecAdd init (g e)) ?_ (fun e' he' => hg e' (List.mem_cons_of_mem e he'))
    rw [length_vecAdd, hinit, hg e (List.mem_cons_self e rest), Nat.min_self]

theorem solveRow_eq (cfg : Config) (G fixed : List (List ℚ)) (obs : List (Nat × ℚ))
    (cur : List ℚ) :
    solveRow cfg G fixed obs cur = if obs.isEmpty then cur
      else
        match gaussSolve cfg.factors (List.zipWith (fun row rhs => row ++ [rhs])
          (rowA cfg G fixed obs) (rowB cfg fixed obs)) with
        | some x => x
        | none => cur := rfl

theorem Mat_rowA (cfg : Config) {Y : List (List ℚ)} (obs : List (Nat × ℚ))
    (hY : ∀ r ∈ Y, r.length = cfg.factors) :
    Mat cfg.factors cfg.factors (rowA cfg (gramMat cfg.factors Y) Y obs) := by
  unfold rowA
  refine Mat_foldl_matAdd obs _ _
    (Mat_matAdd (Mat_gramMat hY) (Mat_matScale _ (Mat_identityMat _))) fun e _ => ?_
  exact Mat_matScale _ (Mat_outerProd
    (getD_default_len hY e.1 _ (length_zeroVec _)) (getD_default_len hY e.1 _ (length_zeroVec _)))

theorem rowB_length (cfg : Config) {Y : List (List ℚ)} (obs : List (Nat × ℚ))
    (hY : ∀ r ∈ Y, r.length = cfg.factors) : (rowB cfg Y obs).length = cfg.factors := by
  unfold rowB
  refine length_foldl_vecAdd obs _ _ _ (length_zeroVec _) fun e _ => ?_
  rw [length_vecScale]
  exact getD_default_len hY e.1 _ (length_zeroVec _)

theorem assembled_normalEq (cfg : Config) (Y : List (List ℚ)) (obs : List (Nat × ℚ))
    (nC : Nat) (hY : ∀ r ∈ Y, r.length = cfg.factors) (hYlen : Y.length = nC)
    (hbound : ∀ e ∈ obs, e.1 < nC) (hnd : (obs.map Prod.fst).Nodup)
    (hpos : ∀ e ∈ obs, 0 < e.2) (x : List ℚ)
    (hg : gaussSolve cfg.factors (List.zipWith (fun row rhs => row ++ [rhs])
      (rowA cfg (gramMat cfg.factors Y) Y obs) (rowB cfg Y obs)) = some x) :
    x.length = cfg.factors ∧
    ∀ j ∈ Finset.range cfg.factors,
      (∑ i ∈ Finset.range nC, confQ cfg.alpha (rowCell obs i)
          * (∑ l ∈ Finset.range cfg.factors, x.getD l 0 * (Y.getD i []).getD l 0)
          * (Y.getD i []).getD j 0)
        + cfg.regularization * x.getD j 0
      = ∑ i ∈ Finset.range nC, confQ cfg.alpha (rowCell obs i) * prefQ (rowCell obs i)
          * (Y.getD i []).getD j 0 := by
  have hxlen : x.length = cfg.factors := gaussSolve_length _ _ _ hg
  refine ⟨hxlen, ?_⟩
  intro j hjr
  have hj : j < cfg.factors := Finset.mem_range.mp hjr
  have hMatA := Mat_rowA cfg obs hY
  have hblen := rowB_length cfg obs hY
  have hauglen : (List.zipWith (fun row rhs => row ++ [rhs])
      (rowA cfg (gramMat cfg.factors Y) Y obs) (rowB cfg Y obs)).length = cfg.factors := by
    rw [List.length_zipWith, hMatA.1, hblen, Nat.min_self]
  have haugrows : ∀ r ∈ List.zipWith (fun row rhs => row ++ [rhs])
      (rowA cfg (gramMat cfg.factors Y) Y obs) (rowB cfg Y obs),
      r.length = cfg.factors + 1 := by
    intro r hr
    obtain ⟨a, ha, b, _, rfl⟩ := mem_zipWith_elim _ _ _ r hr
    rw [List.length_append, hMatA.2 a ha]
    rfl
  have hsolves := gaussSolve_solves cfg.factors _ x hauglen haugrows hg
  have hjaug : j < (List.zipWith (fun row rhs => row ++ [rhs])
      (rowA cfg (gramMat cfg.factors Y) Y obs) (rowB cfg Y obs)).length := by
    rw [hauglen]
    exact hj
  have hr := hsolves _ (List.getElem_mem hjaug)
  have hjA : j < (rowA cfg (gramMat cfg.factors Y) Y obs).length := by
    rw [hMatA.1]
    exact hj
  have hjb : j < (rowB cfg Y obs).length := by
    rw [hblen]
    exact hj
  rw [List.getElem_zipWith] at hr
  have hArow : (rowA cfg (gramMat cfg.factors Y) Y obs)[j]
      = (rowA cfg (gramMat cfg.factors Y) Y obs).getD j [] :=
    (List.getD_eq_getElem _ _ hjA).symm
  have hArowlen : ((rowA cfg (gramMat cfg.factors Y) Y obs).getD j []).length = cfg.factors :=
    row_len hMatA j hj
  rw [hArow] at hr
  rw [List.take_left' hArowlen] at hr
  have hgetk : (((rowA cfg (gramMat cfg.factors Y) Y obs).getD j [])
      ++ [(rowB cfg Y obs)[j]]).getD cfg.factors 0 = (rowB cfg Y obs)[j] := by
    have happ := getD_append_length ((rowA cfg (gramMat cfg.factors Y) Y obs).getD j [])
      [(rowB cfg Y obs)[j]] 0
    rw [hArowlen] at happ
    rw [happ]
    rfl
  rw [hgetk] at hr
  -- hr : dotQ (A row j) x = b[j]
  have hbj : (rowB cfg Y obs)[j] = (rowB cfg Y obs).getD j 0 :=
    (List.getD_eq_getElem _ _ hjb).symm
  rw [hbj] at hr
  -- expand the A row dot product
  have hIM := Mat_identityMat cfg.factors
  have hinitMat : Mat cfg.factors cfg.factors (matAdd (gramMat cfg.factors Y)
      (matScale cfg.regularization (identityMat cfg.factors))) :=
    Mat_matAdd (Mat_gramMat hY) (Mat_matScale _ hIM)
  have hTMat : ∀ e ∈ obs, Mat cfg.factors cfg.factors
      (matScale (cfg.alpha * e.2) (outerProd (Y.getD e.1 (zeroVec cfg.factors))
        (Y.getD e.1 (zeroVec cfg.factors)))) := fun e _ =>
    Mat_matScale _ (Mat_outerProd (getD_default_len hY e.1 _ (length_zeroVec _))
      (getD_default_len hY e.1 _ (length_zeroVec _)))
  have hAexp : dotQ ((rowA cfg (gramMat cfg.factors Y) Y obs).getD j []) x
      = dotQ ((matAdd (gramMat cfg.factors Y)
            (matScale cfg.regularization (identityMat cfg.factors))).getD j []) x
        + (obs.map fun e => dotQ ((matScale (cfg.alpha * e.2)
            (outerProd (Y.getD e.1 (zeroVec cfg.factors))
              (Y.getD e.1 (zeroVec cfg.factors)))).getD j []) x).sum := by
    unfold rowA
    exact dotQ_row_foldl obs _ _ x j hj hinitMat hTMat
  have hinitexp : dotQ ((matAdd (gramMat cfg.factors Y)
        (matScale cfg.regularization (identityMat cfg.factors))).getD j []) x
      = (Y.map fun r => r.getD j 0 * dotQ r x).sum + cfg.regularization * x.getD j 0 := by
    rw [row_matAdd j (by rw [(Mat_gramMat hY).1]; exact hj)
        (by rw [(Mat_matScale cfg.regularization hIM).1]; exact hj),
      dotQ_vecAdd _ _ x (by rw [row_len (Mat_gramMat hY) j hj,
        row_len (Mat_matScale cfg.regularization hIM) j hj]),
      dotQ_row_gramMat hY j x hj,
      row_matScale cfg.regularization j (by rw [hIM.1]; exact hj), dotQ_vecScale,
      dotQ_row_identityMat cfg.factors j x hj hxlen]
  have hTexp : ∀ e ∈ obs, dotQ ((matScale (cfg.alpha * e.2)
        (outerProd (Y.getD e.1 (zeroVec cfg.factors))
          (Y.getD e.1 (zeroVec cfg.factors)))).getD j []) x
      = (cfg.alpha * e.2) * ((Y.getD e.1 (zeroVec cfg.factors)).getD j 0
          * dotQ (Y.getD e.1 (zeroVec cfg.factors)) x) := by
    intro e _
    have hvlen : (Y.getD e.1 (zeroVec cfg.factors)).length = cfg.factors :=
      getD_default_len hY e.1 _ (length_zeroVec _)
    rw [row_matScale _ j (by rw [(Mat_outerProd hvlen hvlen).1]; exact hj), dotQ_vecScale,
      row_outerProd _ _ j (by rw [hvlen]; exact hj), dotQ_vecScale]
  have hbexp : (rowB cfg Y obs).getD j 0
      = (obs.map fun e => (1 + cfg.alpha * e.2)
          * (Y.getD e.1 (zeroVec cfg.factors)).getD j 0).sum := by
    unfold rowB
    have hgg : ∀ e ∈ obs, (vecScale (1 + cfg.alpha * e.2)
        (Y.getD e.1 (zeroVec cfg.factors))).length = cfg.factors := by
      intro e _
      rw [length_vecScale]
      exact getD_default_len hY e.1 _ (length_zeroVec _)
    obtain ⟨h1, -⟩ := getD_foldl_vecAdd obs _ (zeroVec cfg.factors) cfg.factors j hj
      (length_zeroVec _) hgg
    rw [h1, getD_zeroVec, zero_add]
    congr 1
    refine List.map_eq_map_iff.mpr fun e he => ?_
    exact getD_vecScale _ _ j (by
      rw [getD_default_len hY e.1 _ (length_zeroVec _)]
      exact hj)
  -- in-range rows agree for both defaults, and have length k
  have hv0len : ∀ i, i < nC → (Y.getD i []).length = cfg.factors := by
    intro i hi
    rw [List.getD_eq_getElem _ _ (by rw [hYlen]; exact hi)]
    exact hY _ (List.getElem_mem _)
  have hvz : ∀ i, i < nC → Y.getD i (zeroVec cfg.factors) = Y.getD i [] := by
    intro i hi
    exact getD_in_range Y i _ _ (by rw [hYlen]; exact hi)
  -- convert the gram part to a range sum
  have hG : (Y.map fun r => r.getD j 0 * dotQ r x).sum
      = ∑ i ∈ Finset.range nC, (Y.getD i []).getD j 0 * dotQ (Y.getD i []) x := by
    rw [list_sum_getD Y _ ([] : List ℚ), hYlen]
  -- convert the α part to a range sum
  have halpha : (obs.map fun e => dotQ ((matScale (cfg.alpha * e.2)
        (outerProd (Y.getD e.1 (zeroVec cfg.factors))
          (Y.getD e.1 (zeroVec cfg.factors)))).getD j []) x).sum
      = ∑ i ∈ Finset.range nC, rowCell obs i
          * (cfg.alpha * ((Y.getD i []).getD j 0 * dotQ (Y.getD i []) x)) := by
    have hmap : (obs.map fun e => dotQ ((matScale (cfg.alpha * e.2)
          (outerProd (Y.getD e.1 (zeroVec cfg.factors))
            (Y.getD e.1 (zeroVec cfg.factors)))).getD j []) x)
        = obs.map fun e => e.2 * (cfg.alpha
            * ((Y.getD e.1 []).getD j 0 * dotQ (Y.getD e.1 []) x)) := by
      refine List.map_eq_map_iff.mpr fun e he => ?_
      rw [hTexp e he, hvz e.1 (hbound e he)]
      ring
    rw [hmap, ← rowCell_mul_sum obs
      (fun i => cfg.alpha * ((Y.getD i []).getD j 0 * dotQ (Y.getD i []) x)) nC hbound]
  -- convert the b side to a range sum
  have hbrange : (obs.map fun e => (1 + cfg.alpha * e.2)
        * (Y.getD e.1 (zeroVec cfg.factors)).getD j 0).sum
      = ∑ i ∈ Finset.range nC, confQ cfg.alpha (rowCell obs i) * prefQ (rowCell obs i)
          * (Y.getD i []).getD j 0 := by
    have hmap : (obs.map fun e => (1 + cfg.alpha * e.2)
          * (Y.getD e.1 (zeroVec cfg.factors)).getD j 0)
        = obs.map fun e => (1 + cfg.alpha * e.2) * (Y.getD e.1 []).getD j 0 := by
      refine List.map_eq_map_iff.mpr fun e he => ?_
      rw [hvz e.1 (hbound e he)]
    rw [hmap, ← rowCell_confpref_sum obs cfg.alpha (fun i => (Y.getD i []).getD j 0) nC
      hbound hnd hpos]
  -- rewrite the dot products as sums
  have hdot : ∀ i ∈ Finset.range nC, dotQ (Y.getD i []) x
      = ∑ l ∈ Finset.range cfg.factors, x.getD l 0 * (Y.getD i []).getD l 0 := by
    intro i hi
    rw [dotQ_eq_sum_of_len _ _ cfg.factors (hv0len i (Finset.mem_range.mp hi)) hxlen]
    exact Finset.sum_congr rfl fun l _ => mul_comm _ _
  -- assemble
  rw [hAexp, hinitexp, hbexp, hbrange, hG, halpha] at hr
  calc (∑ i ∈ Finset.range nC, confQ cfg.alpha (rowCell obs i)
          * (∑ l ∈ Finset.range cfg.factors, x.getD l 0 * (Y.getD i []).getD l 0)
          * (Y.getD i []).getD j 0)
        + cfg.regularization * x.getD j 0
      = (∑ i ∈ Finset.range nC, ((Y.getD i []).getD j 0 * dotQ (Y.getD i []) x
            + rowCell obs i * (cfg.alpha * ((Y.getD i []).getD j 0 * dotQ (Y.getD i []) x))))
        + cfg.regularization * x.getD j 0 := by
        congr 1
        refine Finset.sum_congr rfl fun i hi => ?_
        rw [← hdot i hi]
        unfold confQ
        ring
    _ = ((∑ i ∈ Finset.range nC, (Y.getD i []).getD j 0 * dotQ (Y.getD i []) x)
          + ∑ i ∈ Finset.range nC, rowCell obs i
              * (cfg.alpha * ((Y.getD i []).getD j 0 * dotQ (Y.getD i []) x)))
        + cfg.regularization * x.getD j 0 := by
        rw [Finset.sum_add_distrib]
    _ = ∑ i ∈ Finset.range nC, confQ cfg.alpha (rowCell obs i) * prefQ (rowCell obs i)
          * (Y.getD i []).getD j 0 := by
        rw [← hr]
        ring

theorem solveRow_optimal (cfg : Config) (Y : List (List ℚ)) (obs : List (Nat × ℚ))
    (nC : Nat) (cur : List ℚ)
    (hY : ∀ r ∈ Y, r.length = cfg.factors) (hYlen : Y.length = nC)
    (hbound : ∀ e ∈ obs, e.1 < nC) (hnd : (obs.map Prod.fst).Nodup)
    (hpos : ∀ e ∈ obs, 0 < e.2) (hcur : cur.length = cfg.factors)
    (hal : 0 ≤ cfg.alpha) (hlam : 0 ≤ cfg.regularization) :
    (solveRow cfg (gramMat cfg.factors Y) Y obs cur).length = cfg.factors ∧
      rowObj cfg.alpha cfg.regularization obs nC Y
          (solveRow cfg (gramMat cfg.factors Y) Y obs cur)
        ≤ rowObj cfg.alpha cfg.regularization obs nC Y cur := by
  have hrowlen : ∀ i, i < nC → (Y.getD i []).length = cfg.factors := by
    intro i hi
    rw [List.getD_eq_getElem _ _ (by rw [hYlen]; exact hi)]
    exact hY _ (List.getElem_mem _)
  have hobj : ∀ z : List ℚ, z.length = cfg.factors →
      rowObj cfg.alpha cfg.regularization obs nC Y z
        = (∑ i ∈ Finset.range nC, confQ cfg.alpha (rowCell obs i)
            * (prefQ (rowCell obs i)
              - ∑ l ∈ Finset.range cfg.factors, z.getD l 0 * (Y.getD i []).getD l 0) ^ 2)
          + cfg.regularization * ∑ l ∈ Finset.range cfg.factors, z.getD l 0 ^ 2 := by
    intro z hz
    unfold rowObj
    congr 1
    · refine Finset.sum_congr rfl fun i hi => ?_
      rw [dotQ_eq_sum_of_len z _ cfg.factors hz (hrowlen i (Finset.mem_range.mp hi))]
    · congr 1
      rw [dotQ_eq_sum_of_len z z cfg.factors hz hz]
      refine Finset.sum_congr rfl fun l _ => ?_
      ring
  have hc : ∀ i, 0 ≤ confQ cfg.alpha (rowCell obs i) := by
    intro i
    have h1 := rowCell_nonneg obs i (fun e he => le_of_lt (hpos e he))
    have h2 := mul_nonneg hal h1
    unfold confQ
    linarith
  rw [solveRow_eq]
  by_cases hobs : obs.isEmpty
  · rw [if_pos hobs]
    exact ⟨hcur, le_refl _⟩
  · rw [if_neg hobs]
    cases hg : gaussSolve cfg.factors (List.zipWith (fun row rhs => row ++ [rhs])
        (rowA cfg (gramMat cfg.factors Y) Y obs) (rowB cfg Y obs)) with
    | none => exact ⟨hcur, le_refl _⟩
    | some x =>
      obtain ⟨hxlen, hNE⟩ := assembled_normalEq cfg Y obs nC hY hYlen hbound hnd hpos x hg
      refine ⟨hxlen, ?_⟩
      rw [hobj x hxlen, hobj cur hcur]
      exact quadratic_min cfg.factors nC cfg.regularization
        (fun i => confQ cfg.alpha (rowCell obs i)) (fun i => prefQ (rowCell obs i))
        (fun i j => (Y.getD i []).getD j 0) (fun l => x.getD l 0) (fun l => cur.getD l 0)
        hc hlam hNE

/-! ### Loss decomposition and symmetry -/

theorem dotQ_self_nonneg (v : List ℚ) : 0 ≤ dotQ v v := by
  induction v with
  | nil => simp [dotQ]
  | cons a as ih =>
    rw [dotQ_cons]
    nlinarith [mul_self_nonneg a]

theorem sqNormM_nonneg (M : List (List ℚ)) : 0 ≤ sqNormM M := by
  unfold sqNormM
  induction M with
  | nil => simp
  | cons r rest ih =>
    simp only [List.map_cons, List.sum_cons]
    have h1 : 0 ≤ sqNormV r := dotQ_self_nonneg r
    linarith

theorem lossQ_eq_rowObj_sum (alpha lam : ℚ) (inter : List (Nat × Nat × ℚ)) (nA nV : Nat)
    (U V : List (List ℚ)) (hU : U.length = nA) :
    lossQ alpha lam inter nA nV U V
      = (∑ u ∈ Finset.range nA, rowObj alpha lam (obsOf inter u) nV V (U.getD u []))
        + lam * sqNormM V := by
  have hsq : sqNormM U = ∑ u ∈ Finset.range nA, dotQ (U.getD u []) (U.getD u []) := by
    unfold sqNormM
    rw [list_sum_getD U sqNormV ([] : List ℚ), hU]
    rfl
  unfold lossQ rowObj
  have hcells : (∑ u ∈ Finset.range nA, ∑ i ∈ Finset.range nV,
        confQ alpha (cellCount inter u i)
          * (prefQ (cellCount inter u i) - dotQ (U.getD u []) (V.getD i [])) ^ 2)
      = ∑ u ∈ Finset.range nA, ∑ i ∈ Finset.range nV,
        confQ alpha (rowCell (obsOf inter u) i)
          * (prefQ (rowCell (obsOf inter u) i) - dotQ (U.getD u []) (V.getD i [])) ^ 2 := by
    refine Finset.sum_congr rfl fun u _ => Finset.sum_congr rfl fun i _ => ?_
    rw [cellCount_eq_rowCell]
  rw [hcells, hsq, Finset.sum_add_distrib, ← Finset.mul_sum]
  ring

theorem lossQ_swap (alpha lam : ℚ) (inter : List (Nat × Nat × ℚ)) (nA nV : Nat)
    (U V : List (List ℚ)) :
    lossQ alpha lam (swapInter inter) nV nA V U = lossQ alpha lam inter nA nV U V := by
  have hcell : ∀ i u, cellCount (swapInter inter) i u = cellCount inter u i := by
    intro i u
    unfold cellCount swapInter
    rw [List.filter_map, List.map_map]
    show ((inter.filter fun t => (t.2.1 == i) && (t.1 == u)).map fun t => t.2.2).sum
      = ((inter.filter fun t => (t.1 == u) && (t.2.1 == i)).map fun t => t.2.2).sum
    have hfil : (inter.filter fun t => (t.2.1 == i) && (t.1 == u))
        = inter.filter fun t => (t.1 == u) && (t.2.1 == i) := by
      refine List.filter_congr fun t _ => ?_
      exact Bool.and_comm _ _
    rw [hfil]
  unfold lossQ
  rw [Finset.sum_comm]
  have hterm : (∑ u ∈ Finset.range nA, ∑ i ∈ Finset.range nV,
        confQ alpha (cellCount (swapInter inter) i u)
          * (prefQ (cellCount (swapInter inter) i u) - dotQ (V.getD i []) (U.getD u [])) ^ 2)
      = ∑ u ∈ Finset.range nA, ∑ i ∈ Finset.range nV,
        confQ alpha (cellCount inter u i)
          * (prefQ (cellCount inter u i) - dotQ (U.getD u []) (V.getD i [])) ^ 2 := by
    refine Finset.sum_congr rfl fun u _ => Finset.sum_congr rfl fun i _ => ?_
    rw [hcell i u, dotQ_comm]
  rw [hterm]
  ring

theorem lossQ_nonneg (alpha lam : ℚ) (inter : List (Nat × Nat × ℚ)) (nA nV : Nat)
    (U V : List (List ℚ)) (hal : 0 ≤ alpha) (hlam : 0 ≤ lam)
    (hpos : ∀ t ∈ inter, 0 < t.2.2) : 0 ≤ lossQ alpha lam inter nA nV U V := by
  unfold lossQ
  have hterm : ∀ u ∈ Finset.range nA, (0 : ℚ)
      ≤ ∑ i ∈ Finset.range nV, confQ alpha (cellCount inter u i)
        * (prefQ (cellCount inter u i) - dotQ (U.getD u []) (V.getD i [])) ^ 2 := by
    intro u _
    refine Finset.sum_nonneg fun i _ => mul_nonneg ?_ (sq_nonneg _)
    have hcell : 0 ≤ cellCount inter u i := by
      rw [cellCount_eq_rowCell]
      refine rowCell_nonneg _ _ fun e he => ?_
      unfold obsOf at he
      obtain ⟨t, ht, rfl⟩ := List.mem_map.mp he
      exact le_of_lt (hpos t (List.mem_of_mem_filter ht))
    have := mul_nonneg hal hcell
    unfold confQ
    linarith
  have h1 := Finset.sum_nonneg hterm
  have h2 := sqNormM_nonneg U
  have h3 := sqNormM_nonneg V
  have h4 : 0 ≤ lam * (sqNormM U + sqNormM V) := mul_nonneg hlam (by linarith)
  linarith

/-! ### Half-step shape and monotonicity -/

theorem solveRow_length (cfg : Config) (G fixed : List (List ℚ)) (obs : List (Nat × ℚ))
    (cur : List ℚ) (hcur : cur.length = cfg.factors) :
    (solveRow cfg G fixed obs cur).length = cfg.factors := by
  rw [solveRow_eq]
  by_cases hobs : obs.isEmpty
  · rw [if_pos hobs]
    exact hcur
  · rw [if_neg hobs]
    cases hg : gaussSolve cfg.factors (List.zipWith (fun row rhs => row ++ [rhs])
        (rowA cfg G fixed obs) (rowB cfg fixed obs)) with
    | none => exact hcur
    | some x => exact gaussSolve_length _ _ _ hg

theorem halfStep_shape (cfg : Config) (inter : List (Nat × Nat × ℚ)) (n : Nat)
    (fixed cur : List (List ℚ)) (hcur : ∀ r ∈ cur, r.length = cfg.factors) :
    (halfStep cfg inter n fixed cur).length = n ∧
      ∀ r ∈ halfStep cfg inter n fixed cur, r.length = cfg.factors := by
  constructor
  · simp [halfStep]
  · intro r hr
    unfold halfStep at hr
    obtain ⟨u, _, rfl⟩ := List.mem_map.mp hr
    exact solveRow_length cfg _ _ _ _ (getD_default_len hcur u _ (length_zeroVec _))

theorem nodup_snd_of_const_fst (l : List (Nat × Nat)) (u : Nat)
    (hfst : ∀ p ∈ l, p.1 = u) (h : l.Nodup) : (l.map Prod.snd).Nodup := by
  refine List.Nodup.map_on ?_ h
  intro p hp q hq hpq
  exact Prod.ext (by rw [hfst p hp, hfst q hq]) hpq

theorem obsOf_fst_nodup (inter : List (Nat × Nat × ℚ)) (u : Nat)
    (hnd : (inter.map fun t => (t.1, t.2.1)).Nodup) :
    ((obsOf inter u).map Prod.fst).Nodup := by
  unfold obsOf
  rw [List.map_map]
  have hsub : ((inter.filter fun t => t.1 == u).map fun t => (t.1, t.2.1)).Nodup :=
    ((List.filter_sublist inter).map _).nodup hnd
  have hfst : ∀ p ∈ (inter.filter fun t => t.1 == u).map fun t => (t.1, t.2.1), p.1 = u := by
    intro p hp
    obtain ⟨t, ht, rfl⟩ := List.mem_map.mp hp
    have := List.of_mem_filter ht
    simpa using this
  have hres := nodup_snd_of_const_fst _ u hfst hsub
  rw [List.map_map] at hres
  exact hres

theorem halfStep_optimal (cfg : Config) (inter : List (Nat × Nat × ℚ)) (nA nV : Nat)
    (U V : List (List ℚ))
    (hU : U.length = nA) (hUr : ∀ r ∈ U, r.length = cfg.factors)
    (hV : V.length = nV) (hVr : ∀ r ∈ V, r.length = cfg.factors)
    (hbound : ∀ t ∈ inter, t.2.1 < nV)
    (hnd : (inter.map fun t => (t.1, t.2.1)).Nodup)
    (hpos : ∀ t ∈ inter, 0 < t.2.2)
    (hal : 0 ≤ cfg.alpha) (hlam : 0 ≤ cfg.regularization) :
    lossQ cfg.alpha cfg.regularization inter nA nV (halfStep cfg inter nA V U) V
      ≤ lossQ cfg.alpha cfg.regularization inter nA nV U V := by
  have hHlen : (halfStep cfg inter nA V U).length = nA :=
    (halfStep_shape cfg inter nA V U hUr).1
  rw [lossQ_eq_rowObj_sum _ _ _ _ _ _ _ hHlen, lossQ_eq_rowObj_sum _ _ _ _ _ _ _ hU]
  refine add_le_add_right (Finset.sum_le_sum fun u hu => ?_) _
  have hu' : u < nA := Finset.mem_range.mp hu
  have hrow : (halfStep cfg inter nA V U).getD u []
      = solveRow cfg (gramMat cfg.factors V) V (obsOf inter u)
          (U.getD u (zeroVec cfg.factors)) := by
    unfold halfStep obsOf
    exact getD_range_map _ nA u [] hu'
  have hobsb : ∀ e ∈ obsOf inter u, e.1 < nV := by
    intro e he
    unfold obsOf at he
    obtain ⟨t, ht, rfl⟩ := List.mem_map.mp he
    exact hbound t (List.mem_of_mem_filter ht)
  have hobsp : ∀ e ∈ obsOf inter u, 0 < e.2 := by
    intro e he
    unfold obsOf at he
    obtain ⟨t, ht, rfl⟩ := List.mem_map.mp he
    exact hpos t (List.mem_of_mem_filter ht)
  have hcurlen : (U.getD u (zeroVec cfg.factors)).length = cfg.factors :=
    getD_default_len hUr u _ (length_zeroVec _)
  have hdef : U.getD u (zeroVec cfg.factors) = U.getD u [] :=
    getD_in_range U u _ _ (by rw [hU]; exact hu')
  rw [hrow, ← hdef]
  exact (solveRow_optimal cfg V (obsOf inter u) nV (U.getD u (zeroVec cfg.factors))
    hVr hV hobsb (obsOf_fst_nodup inter u hnd) hobsp hcurlen hal hlam).2

theorem alsStep_le (cfg : Config) (inter : List (Nat × Nat × ℚ)) (nA nV : Nat)
    (uv : List (List ℚ) × List (List ℚ))
    (hU : Mat nA cfg.factors uv.1) (hV : Mat nV cfg.factors uv.2)
    (hb1 : ∀ t ∈ inter, t.2.1 < nV) (hb2 : ∀ t ∈ inter, t.1 < nA)
    (hnd : (inter.map fun t => (t.1, t.2.1)).Nodup)
    (hpos : ∀ t ∈ inter, 0 < t.2.2)
    (hal : 0 ≤ cfg.alpha) (hlam : 0 ≤ cfg.regularization) :
    Mat nA cfg.factors (alsStep cfg inter nA nV uv).1 ∧
    Mat nV cfg.factors (alsStep cfg inter nA nV uv).2 ∧
    lossQ cfg.alpha cfg.regularization inter nA nV (alsStep cfg inter nA nV uv).1
        (alsStep cfg inter nA nV uv).2
      ≤ lossQ cfg.alpha cfg.regularization inter nA nV uv.1 uv.2 ∧
    lossQ cfg.alpha cfg.regularization inter nA nV (halfStep cfg inter nA uv.2 uv.1) uv.2
      ≤ lossQ cfg.alpha cfg.regularization inter nA nV uv.1 uv.2 ∧
    lossQ cfg.alpha cfg.regularization inter nA nV (alsStep cfg inter nA nV uv).1
        (alsStep cfg inter nA nV uv).2
      ≤ lossQ cfg.alpha cfg.regularization inter nA nV
          (halfStep cfg inter nA uv.2 uv.1) uv.2 := by
  obtain ⟨hUlen, hUr⟩ := hU
  obtain ⟨hVlen, hVr⟩ := hV
  have hu2shape := halfStep_shape cfg inter nA uv.2 uv.1 hUr
  have hstep1 := halfStep_optimal cfg inter nA nV uv.1 uv.2 hUlen hUr hVlen hVr
    hb1 hnd hpos hal hlam
  have hswb : ∀ s ∈ swapInter inter, s.2.1 < nA := by
    intro s hs
    unfold swapInter at hs
    obtain ⟨t, ht, rfl⟩ := List.mem_map.mp hs
    exact hb2 t ht
  have hswnd : ((swapInter inter).map fun s => (s.1, s.2.1)).Nodup := by
    unfold swapInter
    rw [List.map_map]
    have hsw : ((inter.map fun t => (t.1, t.2.1)).map Prod.swap).Nodup :=
      hnd.map Prod.swap_injective
    rw [List.map_map] at hsw
    exact hsw
  have hswpos : ∀ s ∈ swapInter inter, 0 < s.2.2 := by
    intro s hs
    unfold swapInter at hs
    obtain ⟨t, ht, rfl⟩ := List.mem_map.mp hs
    exact hpos t ht
  have hstep2 := halfStep_optimal cfg (swapInter inter) nV nA uv.2
    (halfStep cfg inter nA uv.2 uv.1) hVlen hVr hu2shape.1 hu2shape.2
    hswb hswnd hswpos hal hlam
  rw [lossQ_swap, lossQ_swap] at hstep2
  have hv2shape := halfStep_shape cfg (swapInter inter) nV
    (halfStep cfg inter nA uv.2 uv.1) uv.2 hVr
  exact ⟨⟨hu2shape.1, hu2shape.2⟩, ⟨hv2shape.1, hv2shape.2⟩,
    hstep2.trans hstep1, hstep1, hstep2⟩

theorem alsLoop_succ (cfg : Config) (inter : List (Nat × Nat × ℚ)) (nA nV : Nat)
    (t : Nat) (uv : List (List ℚ) × List (List ℚ)) :
    alsLoop cfg inter nA nV (t + 1) uv
      = alsStep cfg inter nA nV (alsLoop cfg inter nA nV t uv) := by
  induction t generalizing uv with
  | zero => rfl
  | succ m ih =>
    show alsLoop cfg inter nA nV (m + 1) (alsStep cfg inter nA nV uv) = _
    rw [ih (alsStep cfg inter nA nV uv)]
    rfl

theorem initFactors_shape (seed n k : Nat) : Mat n k (initFactors seed n k) := by
  refine ⟨by simp [initFactors], fun r hr => ?_⟩
  obtain ⟨i, _, rfl⟩ := List.mem_map.mp hr
  simp

/-! ### The interactions produced by training are well-formed -/

theorem denseInter_venue_bound (pairs : List (Nat × Nat)) :
    ∀ t ∈ denseInter pairs, t.2.1 < (venueVocab pairs).length := by
  intro t ht
  unfold denseInter at ht
  obtain ⟨e, he, rfl⟩ := List.mem_map.mp ht
  exact List.indexOf_lt_length.mpr (mem_venueVocab he)

theorem denseInter_artist_bound (pairs : List (Nat × Nat)) :
    ∀ t ∈ denseInter pairs, t.1 < (artistVocab pairs).length := by
  intro t ht
  unfold denseInter at ht
  obtain ⟨e, he, rfl⟩ := List.mem_map.mp ht
  exact List.indexOf_lt_length.mpr (mem_artistVocab he)

theorem denseInter_pos (pairs : List (Nat × Nat)) : ∀ t ∈ denseInter pairs, 0 < t.2.2 := by
  intro t ht
  unfold denseInter at ht
  obtain ⟨e, he, rfl⟩ := List.mem_map.mp ht
  obtain ⟨hmem, hcount⟩ := mem_aggregate he
  have hpos : 0 < e.2 := by
    rw [hcount]
    exact List.count_pos_iff.mpr hmem
  show (0 : ℚ) < (e.2 : ℚ)
  exact_mod_cast hpos

theorem denseInter_nodup (pairs : List (Nat × Nat)) :
    ((denseInter pairs).map fun t => (t.1, t.2.1)).Nodup := by
  unfold denseInter
  rw [List.map_map]
  refine List.Nodup.map_on ?_ (nodup_aggregate pairs)
  intro e he e' he' hfe
  have h1 : (artistVocab pairs).indexOf e.1.1 = (artistVocab pairs).indexOf e'.1.1 :=
    congrArg Prod.fst hfe
  have h2 : (venueVocab pairs).indexOf e.1.2 = (venueVocab pairs).indexOf e'.1.2 := by
    have := congrArg Prod.snd hfe
    simpa using this
  have hkey : e.1 = e'.1 := by
    have hx := (List.indexOf_inj (mem_artistVocab he) (mem_artistVocab he')).mp h1
    have hy := (List.indexOf_inj (mem_venueVocab he) (mem_venueVocab he')).mp h2
    exact Prod.ext hx hy
  have hcnt : e.2 = e'.2 := by
    rw [(mem_aggregate he).2, (mem_aggregate he').2, hkey]
  exact Prod.ext hkey hcnt

/-! ### C8: the training loss is non-increasing -/

/-- Claim C8: along the training trajectory of `trainModel` (whose result is
the trajectory state at cfg.iterations), with the spec's configuration
validity α ≥ 0 and λ ≥ 0, the aggregate confidence-weighted reconstruction
loss is non-increasing at each half-step (the artist half-step and then the
venue half-step of every iteration) and monotonically non-increasing across
whole (artist+venue) iterations — exactly, hence in particular within 1e-6
relative tolerance across the first 5 full iterations. -/
theorem als_loss_monotone (cfg : Config) (pairs : List (Nat × Nat))
    (hal : 0 ≤ cfg.alpha) (hlam : 0 ≤ cfg.regularization) (t : Nat) :
    ((trainModel cfg pairs).U, (trainModel cfg pairs).V)
        = trajState cfg pairs cfg.iterations ∧
    lossAt cfg pairs (artistHalf cfg pairs (trajState cfg pairs t))
        ≤ lossAt cfg pairs (trajState cfg pairs t) ∧
    lossAt cfg pairs (trajState cfg pairs (t + 1))
        ≤ lossAt cfg pairs (artistHalf cfg pairs (trajState cfg pairs t)) ∧
    lossAt cfg pairs (trajState cfg pairs (t + 1)) ≤ lossAt cfg pairs (trajState cfg pairs t) ∧
    (t < 5 → lossAt cfg pairs (trajState cfg pairs (t + 1))
        ≤ lossAt cfg pairs (trajState cfg pairs t)
          + lossAt cfg pairs (trajState cfg pairs t) * (1 / 1000000)) := by
  have hshape : ∀ j, Mat (artistVocab pairs).length cfg.factors (trajState cfg pairs j).1 ∧
      Mat (venueVocab pairs).length cfg.factors (trajState cfg pairs j).2 := by
    intro j
    induction j with
    | zero => exact ⟨initFactors_shape _ _ _, initFactors_shape _ _ _⟩
    | succ m ih =>
      have hm := alsStep_le cfg (denseInter pairs) (artistVocab pairs).length
        (venueVocab pairs).length (trajState cfg pairs m) ih.1 ih.2
        (denseInter_venue_bound pairs) (denseInter_artist_bound pairs)
        (denseInter_nodup pairs) (denseInter_pos pairs) hal hlam
      have hsm : trajState cfg pairs (m + 1)
          = alsStep cfg (denseInter pairs) (artistVocab pairs).length
            (venueVocab pairs).length (trajState cfg pairs m) :=
        alsLoop_succ cfg (denseInter pairs) _ _ m _
      rw [hsm]
      exact ⟨hm.1, hm.2.1⟩
  have hstep := alsStep_le cfg (denseInter pairs) (artistVocab pairs).length
    (venueVocab pairs).length (trajState cfg pairs t) (hshape t).1 (hshape t).2
    (denseInter_venue_bound pairs) (denseInter_artist_bound pairs)
    (denseInter_nodup pairs) (denseInter_pos pairs) hal hlam
  have hsucc : trajState cfg pairs (t + 1)
      = alsStep cfg (denseInter pairs) (artistVocab pairs).length
        (venueVocab pairs).length (trajState cfg pairs t) :=
    alsLoop_succ cfg (denseInter pairs) _ _ t _
  have h2 : lossAt cfg pairs (artistHalf cfg pairs (trajState cfg pairs t))
      ≤ lossAt cfg pairs (trajState cfg pairs t) := hstep.2.2.2.1
  have h3 : lossAt cfg pairs (trajState cfg pairs (t + 1))
      ≤ lossAt cfg pairs (artistHalf cfg pairs (trajState cfg pairs t)) := by
    rw [hsucc]
    exact hstep.2.2.2.2
  have h4 : lossAt cfg pairs (trajState cfg pairs (t + 1))
      ≤ lossAt cfg pairs (trajState cfg pairs t) := by
    rw [hsucc]
    exact hstep.2.2.1
  refine ⟨rfl, h2, h3, h4, fun _ => ?_⟩
  have hnn : 0 ≤ lossAt cfg pairs (trajState cfg pairs t) :=
    lossQ_nonneg _ _ _ _ _ _ _ hal hlam (denseInter_pos pairs)
  nlinarith

/-- Witness for C8, at a concrete configuration, input and iteration. -/
theorem als_loss_monotone_witness :
    (0 : ℚ) ≤ (1 : ℚ) ∧ 0 < 5 ∧
      (lossAt ⟨1, 1, 1, 1, 0⟩ [(1, 2)] (trajState ⟨1, 1, 1, 1, 0⟩ [(1, 2)] 1)
        ≤ lossAt ⟨1, 1, 1, 1, 0⟩ [(1, 2)] (trajState ⟨1, 1, 1, 1, 0⟩ [(1, 2)] 0)) ∧
      lossAt ⟨1, 1, 1, 1, 0⟩ [(1, 2)] (trajState ⟨1, 1, 1, 1, 0⟩ [(1, 2)] 1)
        ≤ lossAt ⟨1, 1, 1, 1, 0⟩ [(1, 2)] (trajState ⟨1, 1, 1, 1, 0⟩ [(1, 2)] 0)
          + lossAt ⟨1, 1, 1, 1, 0⟩ [(1, 2)] (trajState ⟨1, 1, 1, 1, 0⟩ [(1, 2)] 0)
            * (1 / 1000000) :=
  ⟨zero_le_one, by decide,
    (als_loss_monotone ⟨1, 1, 1, 1, 0⟩ [(1, 2)] zero_le_one zero_le_one 0).2.2.2.1,
    (als_loss_monotone ⟨1, 1, 1, 1, 0⟩ [(1, 2)] zero_le_one zero_le_one 0).2.2.2.2
      (by decide)⟩

end PaRec
